import Mathlib

/-!
# Verification of the shai-hulud-detector SBOM scanner core

Shallow embedding of `sbom-scan.mjs` (an SBOM scan-and-match tool): the
watch-list loader, the SPDX record parser, the version matcher, the
aggregator and the bounded-concurrency pool, together with a model of the
strict-mode behaviour of the npm `semver` package (`valid`, `gt`, `lte`)
that the scanner calls.

Modelling conventions:
* JavaScript strings are modelled as Lean `String`/`List Char`; all string
  indices are code points (identical to UTF-16 indices on the ASCII data the
  scanner handles).
* JavaScript `Map` and `Set` are modelled as insertion-ordered association
  lists with the operations `mapGet`/`mapSet`/`setAdd`.
* A thrown exception is modelled as `Except.error`; `catch` blocks are the
  places where an `Except.error` value is consumed.
* `String.prototype.localeCompare` and the default `Array.prototype.sort`
  comparator are modelled as lexicographic code-point comparison.
-/

namespace ShaiHulud

/-- A comparison function that behaves like the comparison of a linear order:
antisymmetric under `swap`, `eq` exactly on equal arguments, and transitive. -/
structure LawfulOrdCmp {α : Type} (f : α → α → Ordering) : Prop where
  swap_eq : ∀ a b, (f a b).swap = f b a
  eq_iff : ∀ a b, f a b = .eq ↔ a = b
  lt_trans : ∀ a b c, f a b = .lt → f b c = .lt → f a c = .lt

/-- Lexicographic pairing of two comparison functions. -/
def cmpPair {α β : Type} (f : α → α → Ordering) (g : β → β → Ordering)
    (x y : α × β) : Ordering :=
  (f x.1 y.1).then (g x.2 y.2)

/-- Lexicographic comparison of lists: the shorter list is smaller when it is a
prefix of the longer, which matches how npm semver compares prerelease
identifier sequences and how JavaScript compares strings. -/
def lexCompare {α : Type} (f : α → α → Ordering) : List α → List α → Ordering
  | [], [] => .eq
  | [], _ :: _ => .lt
  | _ :: _, [] => .gt
  | x :: xs, y :: ys => (f x y).then (lexCompare f xs ys)

/-- Nat comparison, wrapped so the lawfulness proof has a stable head symbol. -/
def cmpNat (a b : Nat) : Ordering := compare a b

/-- Code-point comparison of characters: this is how JavaScript compares the
characters of two strings (code-unit order, identical on the basic plane). -/
def cmpChar (a b : Char) : Ordering := cmpNat a.toNat b.toNat

/-! ## Semantic versions (model of the npm `semver` package, strict mode)

npm semver parses a version into numeric `major.minor.patch`, an optional
dot-separated prerelease identifier list and an optional build identifier
list.  Precedence (semver.org 2.0.0, as implemented by `compareIdentifiers`
and `SemVer.comparePre`) ignores build metadata; a release sorts above any
prerelease of the same numeric triple; prerelease identifier lists compare
lexicographically, numeric identifiers before alphanumeric ones, numeric
identifiers by value and alphanumeric ones by code-point order; a shorter
identifier list that is a prefix of a longer one is smaller. -/

/-- One prerelease identifier: numeric (compared by value) or alphanumeric
(compared as a character string). -/
inductive PreId : Type where
  | num : Nat → PreId
  | str : List Char → PreId
deriving DecidableEq, Repr

/-- Comparison of prerelease identifiers, as npm semver `compareIdentifiers`:
numeric identifiers sort below alphanumeric ones. -/
def cmpPreId : PreId → PreId → Ordering
  | .num a, .num b => cmpNat a b
  | .num _, .str _ => .lt
  | .str _, .num _ => .gt
  | .str a, .str b => lexCompare cmpChar a b

/-- Top-level prerelease comparison: the empty prerelease list (a release)
sorts above every non-empty one; two non-empty lists compare
lexicographically.  This is npm semver `comparePre`. -/
def cmpPreTop (a b : List PreId) : Ordering :=
  match a, b with
  | [], [] => .eq
  | [], _ :: _ => .gt
  | _ :: _, [] => .lt
  | x :: xs, y :: ys => lexCompare cmpPreId (x :: xs) (y :: ys)

/-- A parsed semantic version.  `build` is carried (it is part of the parsed
form) but ignored by comparison, exactly as in npm semver. -/
structure SemVer : Type where
  major : Nat
  minor : Nat
  patch : Nat
  prerelease : List PreId
  build : List (List Char)
deriving DecidableEq, Repr

/-- The comparison key of a version: everything except build metadata. -/
def svKey (v : SemVer) : Nat × (Nat × (Nat × List PreId)) :=
  (v.major, v.minor, v.patch, v.prerelease)

/-- npm semver `compare`: major, then minor, then patch, then prerelease;
build metadata is ignored. -/
def compareSemVer (a b : SemVer) : Ordering :=
  cmpPair cmpNat (cmpPair cmpNat (cmpPair cmpNat cmpPreTop)) (svKey a) (svKey b)

/-! ## Parsing version strings

Model of npm semver's strict parse (`semver.parse` / the `SemVer`
constructor with default options): the input is rejected if longer than 256
characters, trimmed, allowed one optional leading `v`, and must then match

    MAJOR.MINOR.PATCH(-PRERELEASE)?(+BUILD)?

where `MAJOR`/`MINOR`/`PATCH` are `0|[1-9][0-9]*` and at most
`Number.MAX_SAFE_INTEGER`; `PRERELEASE` is a dot-separated non-empty list of
identifiers over `[0-9A-Za-z-]`, all-digit identifiers having no leading
zero (kept as numbers when below `MAX_SAFE_INTEGER`, as strings otherwise);
`BUILD` is a dot-separated non-empty list of identifiers over `[0-9A-Za-z-]`.
The JavaScript `trim` removes a slightly larger whitespace set than the
ASCII one modelled here; the scanner's inputs are ASCII. -/

/-- JavaScript whitespace, restricted to the ASCII range (plus NBSP). -/
def jsWhitespace (c : Char) : Bool :=
  c == ' ' || c == '\t' || c == '\n' || c == '\r' ||
    c == '\x0b' || c == '\x0c' || c.toNat == 0xa0

/-- `String.prototype.trim` on a character list. -/
def jsTrimChars (cs : List Char) : List Char :=
  ((cs.dropWhile jsWhitespace).reverse.dropWhile jsWhitespace).reverse

/-- `String.prototype.trim`. -/
def jsTrim (s : String) : String :=
  (jsTrimChars s.toList).asString

/-- Split a character list into its leading digit run and the rest. -/
def spanDigits (cs : List Char) : List Char × List Char :=
  (cs.takeWhile Char.isDigit, cs.dropWhile Char.isDigit)

/-- `0|[1-9][0-9]*`: no leading zero unless the number is exactly `0`. -/
def noLeadingZero : List Char → Bool
  | '0' :: _ :: _ => false
  | _ => true

/-- Value of a digit string. -/
def digitsToNat (ds : List Char) : Nat :=
  ds.foldl (fun n c => 10 * n + (c.toNat - 48)) 0

/-- `Number.MAX_SAFE_INTEGER`. -/
def maxSafeInteger : Nat := 9007199254740991

/-- Parse one numeric version component (`0|[1-9][0-9]*`, at most
`MAX_SAFE_INTEGER`). -/
def parseNumComp (ds : List Char) : Option Nat :=
  if ds.isEmpty then none
  else if noLeadingZero ds then
    let n := digitsToNat ds
    if n ≤ maxSafeInteger then some n else none
  else none

/-- Characters allowed in prerelease/build identifiers: `[0-9A-Za-z-]`. -/
def isIdChar (c : Char) : Bool :=
  c.isDigit || c.isAlpha || c == '-'

/-- Parse a non-empty dot-separated identifier sequence, returning the raw
identifiers and the unconsumed remainder (which starts with the first
character that is neither an identifier character nor a dot separator
followed by an identifier). -/
def parseIdsAux (cs : List Char) : Option (List (List Char) × List Char) :=
  if (cs.takeWhile isIdChar).isEmpty then none
  else
    match hr : cs.dropWhile isIdChar with
    | '.' :: rest2 =>
      match parseIdsAux rest2 with
      | some (ids, r) => some (cs.takeWhile isIdChar :: ids, r)
      | none => none
    | r => some ([cs.takeWhile isIdChar], r)
termination_by cs.length
decreasing_by
  have h4 : (cs.dropWhile isIdChar).length ≤ cs.length :=
    (cs.dropWhile_sublist isIdChar).length_le
  rw [hr] at h4
  simp only [List.length_cons] at h4
  omega

/-- Classify one prerelease identifier as npm semver does: all-digit
identifiers must have no leading zero and become numeric when below
`MAX_SAFE_INTEGER` (otherwise they stay strings); identifiers with a
non-digit stay strings. -/
def classifyPre (id : List Char) : Option PreId :=
  if id.all Char.isDigit then
    if noLeadingZero id then
      let n := digitsToNat id
      some (if n < maxSafeInteger then PreId.num n else PreId.str id)
    else none
  else some (PreId.str id)

/-- Parse the part of a version after `MAJOR.MINOR.PATCH`: nothing, a
prerelease introduced by `-` (optionally followed by build metadata
introduced by `+`), or build metadata introduced by `+`. -/
def parseSuffix : List Char → Option (List PreId × List (List Char))
  | [] => some ([], [])
  | '-' :: rest =>
    match parseIdsAux rest with
    | none => none
    | some (ids, r) =>
      match ids.mapM classifyPre with
      | none => none
      | some pre =>
        match r with
        | [] => some (pre, [])
        | '+' :: rest2 =>
          match parseIdsAux rest2 with
          | none => none
          | some (bids, r2) => if r2.isEmpty then some (pre, bids) else none
        | _ => none
  | '+' :: rest =>
    match parseIdsAux rest with
    | none => none
    | some (bids, r2) => if r2.isEmpty then some ([], bids) else none
  | _ => none

/-- The optional leading `v` allowed by the strict semver grammar. -/
def dropV : List Char → List Char
  | 'v' :: rest => rest
  | cs => cs

/-- Parse a trimmed version body. -/
def parseSemVerCore (cs0 : List Char) : Option SemVer :=
  let cs1 := dropV cs0
  let (majds, r1) := spanDigits cs1
  match parseNumComp majds with
  | none => none
  | some maj =>
    match r1 with
    | '.' :: r2 =>
      let (minds, r3) := spanDigits r2
      match parseNumComp minds with
      | none => none
      | some mino =>
        match r3 with
        | '.' :: r4 =>
          let (patds, r5) := spanDigits r4
          match parseNumComp patds with
          | none => none
          | some pat =>
            match parseSuffix r5 with
            | none => none
            | some (pre, bld) => some ⟨maj, mino, pat, pre, bld⟩
        | _ => none
    | _ => none

/-- `semver.parse` (strict): length cap, trim, then the grammar above. -/
def parseSemver (s : String) : Option SemVer :=
  if s.length > 256 then none
  else parseSemVerCore (jsTrimChars s.toList)

/-- Truthiness of `semver.valid`. -/
def semverValid (s : String) : Bool :=
  (parseSemver s).isSome

/-- `semver.gt` on version strings.  npm semver throws on an invalid
argument; the scanner only ever calls it with validated versions, and the
model returns `false` outside that domain. -/
def semverGtB (a b : String) : Bool :=
  match parseSemver a, parseSemver b with
  | some x, some y => compareSemVer x y == .gt
  | _, _ => false

/-- `semver.lte` on version strings, totalised like `semverGtB`. -/
def semverLteB (a b : String) : Bool :=
  match parseSemver a, parseSemver b with
  | some x, some y => compareSemVer x y != .gt
  | _, _ => false

/-- `semver.eq` on version strings: equal precedence (build metadata and
cosmetic differences such as a leading `v` are ignored). -/
def semverEqB (a b : String) : Bool :=
  match parseSemver a, parseSemver b with
  | some x, some y => compareSemVer x y == .eq
  | _, _ => false

/-! ## JavaScript string and collection helpers -/

/-- `String.prototype.toLowerCase` on one character, ASCII range (the
scanner's package names are npm names, which are ASCII). -/
def lowerChar (c : Char) : Char :=
  if 65 ≤ c.toNat && c.toNat ≤ 90 then Char.ofNat (c.toNat + 32) else c

/-- `String.prototype.toLowerCase`. -/
def jsToLower (s : String) : String :=
  (s.toList.map lowerChar).asString

/-- A name/version pair (a watch-list entry or a discovered package). -/
structure NV : Type where
  name : String
  version : String
deriving DecidableEq, Repr

/-- Index of the last occurrence of `c`, as `String.prototype.lastIndexOf`
(`none` plays the role of `-1`). -/
def lastIdxOf (c : Char) : List Char → Option Nat
  | [] => none
  | x :: xs =>
    match lastIdxOf c xs with
    | some j => some (j + 1)
    | none => if x == c then some 0 else none

/-- `parseLine` of `sbom-scan.mjs`: trim; drop blank lines and `#` comments;
split at the last `@` (which must be at a positive index); trim both halves
and require them non-empty. -/
def parseLine (line : String) : Option NV :=
  let cs := (jsTrim line).toList
  if cs.isEmpty then none
  else if cs.head? == some '#' then none
  else
    match lastIdxOf '@' cs with
    | none => none
    | some 0 => none
    | some atIdx =>
      let name := jsTrim (cs.take atIdx).asString
      let version := jsTrim (cs.drop (atIdx + 1)).asString
      if name == "" || version == "" then none else some ⟨name, version⟩

/-- JavaScript `Map` lookup on an insertion-ordered association list. -/
def mapGet {β : Type} (m : List (String × β)) (k : String) : Option β :=
  match m.find? (fun p => p.1 == k) with
  | some p => some p.2
  | none => none

/-- JavaScript `Map.set`: overwrite in place when the key is present,
append otherwise. -/
def mapSet {β : Type} (m : List (String × β)) (k : String) (v : β) :
    List (String × β) :=
  if m.any (fun p => p.1 == k) then
    m.map (fun p => if p.1 == k then (k, v) else p)
  else m ++ [(k, v)]

/-- JavaScript `Set.add` on an insertion-ordered duplicate-free list. -/
def setAdd (s : List String) (x : String) : List String :=
  if s.contains x then s else s ++ [x]

/-! ## The watch-list loader -/

/-- `lines.map(parseLine).filter(Boolean)`: the retained watch-list entries.
Note that `parseLine` does not validate the version string. -/
def inputEntries (lines : List String) : List NV :=
  lines.filterMap parseLine

/-- One step of the `wantedMaxVersion` fold: skip a non-semver version
(`if (!semver.valid(version)) continue`), then keep the greater version per
lowercased name (`if (!prev || semver.gt(version, prev))`). -/
def watchStep (m : List (String × String)) (e : NV) : List (String × String) :=
  if semverValid e.version then
    match mapGet m (jsToLower e.name) with
    | none => mapSet m (jsToLower e.name) e.version
    | some prev =>
      if prev == "" || semverGtB e.version prev then
        mapSet m (jsToLower e.name) e.version
      else m
  else m

/-- The `wantedMaxVersion` fold over all retained entries. -/
def buildWatchIndex (entries : List NV) : List (String × String) :=
  entries.foldl watchStep []

/-- The value-level combination performed by `watchStep` at a fixed key. -/
def verBest : Option String → String → Option String
  | none, v => some v
  | some prev, v =>
    if prev == "" || semverGtB v prev then some v else some prev

/-- The valid versions a list of entries offers for a given lowercased
name, in list order. -/
def wiVersions (entries : List NV) (k : String) : List String :=
  (entries.filter
    (fun e => (jsToLower e.name == k) && semverValid e.version)).map NV.version

/-- No two entries for the same lowercased name carry semver-equal but
textually distinct valid versions (e.g. `1.0.0` next to `v1.0.0` or
`1.0.0+a` next to `1.0.0+b`).  Under this condition the watch-index fold
has a unique maximum to converge to. -/
def WatchDistinct (l : List NV) : Prop :=
  List.Pairwise
    (fun a b => jsToLower a.name = jsToLower b.name →
      semverValid a.version = true → semverValid b.version = true →
      (a.version = b.version ∨ semverEqB a.version b.version = false)) l

instance instDecidableWatchDistinct (l : List NV) : Decidable (WatchDistinct l) := by
  unfold WatchDistinct
  haveI : DecidableRel
      (fun (a b : NV) => jsToLower a.name = jsToLower b.name →
        semverValid a.version = true → semverValid b.version = true →
        (a.version = b.version ∨ semverEqB a.version b.version = false)) :=
    fun a b => inferInstance
  infer_instance

/-! ## The SBOM record parser -/

/-- One external reference of an SPDX package record; either field may be
absent (or of the wrong dynamic type, which the scanner treats the same
way). -/
structure ExtRef : Type where
  referenceType : Option String
  referenceLocator : Option String
deriving DecidableEq, Repr

/-- One SPDX package record as the scanner reads it: `name`, `versionInfo`
and `externalRefs` are all optional (`externalRefs : none` also covers a
non-array value, which the code replaces by `[]`). -/
structure SpdxPackage : Type where
  name : Option String
  versionInfo : Option String
  externalRefs : Option (List ExtRef)
deriving DecidableEq, Repr

/-- Hexadecimal digit value. -/
def hexVal (c : Char) : Option Nat :=
  if '0' ≤ c && c ≤ '9' then some (c.toNat - 48)
  else if 'a' ≤ c && c ≤ 'f' then some (c.toNat - 87)
  else if 'A' ≤ c && c ≤ 'F' then some (c.toNat - 55)
  else none

/-- `decodeURIComponent`, restricted to ASCII percent-escapes: `%XX` with a
value below 0x80 decodes to that character, a malformed escape (`%` not
followed by two hex digits) is a thrown `URIError`, modelled as `none`.
Multi-byte UTF-8 escape sequences (values ≥ 0x80) are out of scope of this
model and conservatively mapped to `none`; the npm package-URL scheme only
percent-encodes the ASCII `@` of a scope (`%40`). -/
def percentDecode : List Char → Option (List Char)
  | [] => some []
  | '%' :: h1 :: h2 :: rest =>
    match hexVal h1, hexVal h2 with
    | some a, some b =>
      if 16 * a + b < 128 then
        match percentDecode rest with
        | some tail => some (Char.ofNat (16 * a + b) :: tail)
        | none => none
      else none
    | _, _ => none
  | '%' :: _ => none
  | c :: rest =>
    match percentDecode rest with
    | some tail => some (c :: tail)
    | none => none

/-- A JavaScript line terminator (which `.` in a regular expression does not
match). -/
def isLineTerm (c : Char) : Bool :=
  c == '\n' || c == '\r' || c.toNat == 0x2028 || c.toNat == 0x2029

/-- The split performed by `/^pkg:npm\/(.+)@(.+)$/` on the text after the
`pkg:npm/` prefix: both groups are non-empty and `.` matches no line
terminator, so the match (with a greedy first group) cuts at the last `@`
that leaves at least one character on each side. -/
def lastAtValid (cs : List Char) : Option Nat :=
  ((List.range cs.length).filter
    (fun j => decide (1 ≤ j) && decide (j + 1 < cs.length) && (cs[j]? == some '@'))).getLast?

/-- The purl fallback of `parsePkgNameVersionFromSpdx`: prefix test, regex
split, percent-decoding (which may throw), semver validation. -/
def parsePurl (purl : String) : Except String (Option NV) :=
  if purl.toList.take 8 == "pkg:npm/".toList then
    if (purl.toList.drop 8).any isLineTerm then .ok none
    else
      match lastAtValid (purl.toList.drop 8) with
      | none => .ok none
      | some j =>
        match percentDecode ((purl.toList.drop 8).take j) with
        | none => .error "URIError: URI malformed"
        | some nameCs =>
          if semverValid ((purl.toList.drop 8).drop (j + 1)).asString then
            .ok (some ⟨nameCs.asString, ((purl.toList.drop 8).drop (j + 1)).asString⟩)
          else .ok none
  else .ok none

/-- `parsePkgNameVersionFromSpdx`: primary path (declared name non-empty and
declared version valid semver), else the purl fallback.  `Except.error`
models the `URIError` that `decodeURIComponent` can throw, which the
function does not catch. -/
def parsePkgNameVersionFromSpdx (p : SpdxPackage) : Except String (Option NV) :=
  if p.name.getD "" != "" && semverValid (p.versionInfo.getD "") then
    .ok (some ⟨p.name.getD "", p.versionInfo.getD ""⟩)
  else
    match ((p.externalRefs.getD []).find? (fun e => e.referenceType == some "purl")).bind
        (fun e => e.referenceLocator) with
    | none => .ok none
    | some purl => parsePurl purl

/-! ## The version matcher and the per-repository scan -/

/-- `keyNameVersion`: the MatchKey rendered as a string — note the
lowercasing of the name. -/
def keyNameVersion (name version : String) : String :=
  jsToLower name ++ "@" ++ version

/-- The match decision of the pool worker: look up the lowercased name,
skip when absent (or when the stored value is falsy), else compare with
`semver.lte`. -/
def versionMatch (idx : List (String × String)) (nv : NV) : Bool :=
  match mapGet idx (jsToLower nv.name) with
  | none => false
  | some maxAllowed =>
    if maxAllowed == "" then false else semverLteB nv.version maxAllowed

/-- One iteration of the record loop of the pool worker: a parse error
aborts the whole loop, a parsed record that matches adds its key to the
duplicate-free `foundPairs` list. -/
def scanStep (idx : List (String × String)) (found : List String)
    (p : SpdxPackage) : Except String (List String) :=
  match parsePkgNameVersionFromSpdx p with
  | .error e => .error e
  | .ok none => .ok found
  | .ok (some nv) =>
    .ok (if versionMatch idx nv then
           setAdd found (keyNameVersion nv.name nv.version)
         else found)

/-- The record loop of the pool worker: build the duplicate-free `foundPairs`
list of match keys.  A `URIError` from the record parser escapes the loop
(it is only caught by the worker's `try/catch`). -/
def scanPackages (idx : List (String × String)) (pkgs : List SpdxPackage) :
    Except String (List String) :=
  pkgs.foldlM (scanStep idx) []

/-- One repository as the pool worker sees it: its full name and the result
of the SBOM fetch (`Except.error` models a thrown fetch error; on success
the packages list stands for `sbom.packages`, with `[]` when absent). -/
structure RepoResult : Type where
  full : String
  fetch : Except String (List SpdxPackage)
deriving Repr

/-- The whole fallible part of the pool worker: fetch, then scan records. -/
def workerPairs (idx : List (String × String)) (r : RepoResult) :
    Except String (List String) :=
  match r.fetch with
  | .error e => .error e
  | .ok pkgs => scanPackages idx pkgs

/-- The keys the worker contributes to the accumulator: none when anything
threw (the `catch` block records nothing). -/
def scanRepoPairs (idx : List (String × String)) (r : RepoResult) : List String :=
  match workerPairs idx r with
  | .error _ => []
  | .ok found => found

/-- The `console.error` line the `catch` block emits, if any. -/
def scanRepoLog (idx : List (String × String)) (r : RepoResult) : List String :=
  match workerPairs idx r with
  | .error e => ["SBOM fetch failed for " ++ r.full ++ ": " ++ e]
  | .ok _ => []

/-! ## The aggregator -/

/-- One `affectedMap` update: `if (!affectedMap.has(pair))
affectedMap.set(pair, new Set()); affectedMap.get(pair).add(full)`. -/
def affectedStep (full : String) (m : List (String × List String)) (pair : String) :
    List (String × List String) :=
  match mapGet m pair with
  | none => mapSet m pair (setAdd [] full)
  | some s => mapSet m pair (setAdd s full)

/-- Fold one repository's found pairs into the accumulator. -/
def aggregateRepo (idx : List (String × String)) (m : List (String × List String))
    (r : RepoResult) : List (String × List String) :=
  (scanRepoPairs idx r).foldl (affectedStep r.full) m

/-- `affectedMap`: fold every repository's found pairs into a map from match
key to the duplicate-free list of repository full names.  (The real code
fills the map in completion order; the map is only ever read through
`mapGet` and the output is sorted, so scan-list order is used here.) -/
def aggregate (idx : List (String × String)) (rs : List RepoResult) :
    List (String × List String) :=
  rs.foldl (aggregateRepo idx) []

/-- The repositories (in scan order) that discover a given match key. -/
def reposFor (idx : List (String × String)) (rs : List RepoResult) (k : String) :
    List String :=
  (rs.filter (fun r => (scanRepoPairs idx r).contains k)).map RepoResult.full

/-- The log lines of the whole scan, in scan-list order. -/
def scanLogs (idx : List (String × String)) (rs : List RepoResult) : List String :=
  rs.flatMap (scanRepoLog idx)

/-- One output match record. -/
structure MatchRecord : Type where
  package : String
  version : String
  repositories : List String
deriving DecidableEq, Repr

/-- Lexicographic code-point `≤` on strings: the model of both the default
`Array.prototype.sort` comparator and `localeCompare`-based ordering. -/
def strLe (a b : String) : Bool :=
  lexCompare cmpChar a.toList b.toList != .gt

/-- `strLe` as a relation, for `List.Sorted`. -/
def strOrd (a b : String) : Prop := strLe a b = true

instance : DecidableRel strOrd := fun a b => instDecidableEqBool _ _

/-- The output comparator `(a, b) => a.package === b.package ?
a.version.localeCompare(b.version) : a.package.localeCompare(b.package)`,
as a `≤` relation. -/
def matchLeB (a b : MatchRecord) : Bool :=
  if a.package == b.package then strLe a.version b.version
  else strLe a.package b.package

/-- `matchLeB` as a relation, for `List.Sorted`. -/
def matchLe (a b : MatchRecord) : Prop := matchLeB a b = true

instance : DecidableRel matchLe := fun a b => instDecidableEqBool _ _

/-- JavaScript `String.prototype.slice` index normalisation: negative
indices count from the end, and both ends clamp to `[0, length]`. -/
def jsSliceNorm (n : Int) (i : Int) : Nat :=
  (if i < 0 then max (n + i) 0 else min i n).toNat

/-- JavaScript `String.prototype.slice` on a character list. -/
def jsSliceChars (cs : List Char) (a b : Int) : List Char :=
  (cs.take (jsSliceNorm cs.length b)).drop (jsSliceNorm cs.length a)

/-- `pair.lastIndexOf("@")` with JavaScript's `-1`-for-absent convention. -/
def recAt (s : String) : Int :=
  match lastIdxOf '@' s.toList with
  | none => -1
  | some j => (j : Int)

/-- Turn one accumulator entry back into a match record: split the key at
its last `@` (`slice(0, at)` / `slice(at + 1)`), sort the repositories with
the default comparator. -/
def recOf (kv : String × List String) : MatchRecord :=
  { package := (jsSliceChars kv.1.toList 0 (recAt kv.1)).asString,
    version := (jsSliceChars kv.1.toList (recAt kv.1 + 1) kv.1.toList.length).asString,
    repositories := List.insertionSort strOrd kv.2 }

/-- The final `matches` array: map the accumulator through `recOf`, then
sort with the output comparator. -/
def finalMatches (idx : List (String × String)) (rs : List RepoResult) :
    List MatchRecord :=
  List.insertionSort matchLe ((aggregate idx rs).map recOf)

/-- The JSON object the scanner writes. -/
structure ScanOutput : Type where
  org : String
  generated_at : String
  input_entries : Nat
  repos_scanned : Nat
  matchesOut : List MatchRecord
  host : String
deriving DecidableEq, Repr

/-- The whole run after the repository list is known: build the entries and
the watch index from the input lines, scan every repository, aggregate, and
assemble the output object. -/
def runScan (org generatedAt host : String) (lines : List String)
    (rs : List RepoResult) : ScanOutput :=
  let entries := inputEntries lines
  let idx := buildWatchIndex entries
  { org := org,
    generated_at := generatedAt,
    input_entries := entries.length,
    repos_scanned := rs.length,
    matchesOut := finalMatches idx rs,
    host := host }

/-! ## The promise pool

`pool(items, limit, worker)` is a cooperative scheduler: an outer loop
starts workers while `active.size < limit` and there are unstarted items,
then `await`s `Promise.race(active)`; a drain loop then awaits the rest.
It is modelled as a transition system on the pair (number of started items,
number of outstanding workers): `start` fires only when the JavaScript
guard `active.size < limit` holds and items remain, `settle` fires when a
worker is outstanding.  `limit` is a JavaScript number
(`Number(args.concurrency ?? 6)`), modelled as `Option ℚ` with `none`
playing `NaN` (every `<` comparison against `NaN` is false). -/

/-- Scheduler state: `next` items have been started, `active` of them are
still outstanding. -/
structure PoolState : Type where
  next : Nat
  active : Nat
deriving DecidableEq, Repr

/-- The JavaScript guard `active.size < limit`. -/
def canStart (limit : Option ℚ) (active : Nat) : Bool :=
  match limit with
  | none => false
  | some q => decide ((active : ℚ) < q)

/-- One scheduler event. -/
inductive PoolStep (total : Nat) (limit : Option ℚ) : PoolState → PoolState → Prop where
  | start (next active : Nat) (hs : canStart limit active = true) (hq : next < total) :
      PoolStep total limit ⟨next, active⟩ ⟨next + 1, active + 1⟩
  | settle (next active : Nat) (ha : 0 < active) :
      PoolStep total limit ⟨next, active⟩ ⟨next, active - 1⟩

/-- The initial scheduler state. -/
def poolInit : PoolState := ⟨0, 0⟩

/-- Reachability along scheduler events. -/
def PoolReach (total : Nat) (limit : Option ℚ) : PoolState → PoolState → Prop :=
  Relation.ReflTransGen (PoolStep total limit)

/-- The exit condition of `pool`: both loops are done — no unstarted items
remain and every started operation has settled. -/
def poolDone (total : Nat) (s : PoolState) : Prop :=
  s.next = total ∧ s.active = 0

/-- Number of settled operations. -/
def poolSettled (s : PoolState) : Nat := s.next - s.active

/-- Termination measure: strictly decreases along every scheduler event. -/
def poolMeasure (total : Nat) (s : PoolState) : Nat :=
  2 * (total - s.next) + s.active

/-! ## Ordering infrastructure -/

theorem ord_then_eq_eq (o₁ o₂ : Ordering) : o₁.then o₂ = .eq ↔ o₁ = .eq ∧ o₂ = .eq := by
  cases o₁ <;> cases o₂ <;> simp [Ordering.then]

theorem ord_then_eq_lt (o₁ o₂ : Ordering) : o₁.then o₂ = .lt ↔ o₁ = .lt ∨ (o₁ = .eq ∧ o₂ = .lt) := by
  cases o₁ <;> cases o₂ <;> simp [Ordering.then]

theorem ord_swap_then (o₁ o₂ : Ordering) : (o₁.then o₂).swap = o₁.swap.then o₂.swap := by
  cases o₁ <;> cases o₂ <;> rfl

theorem ord_swap_eq_gt (o : Ordering) : o.swap = .gt ↔ o = .lt := by
  cases o <;> simp [Ordering.swap]

theorem ord_swap_eq_lt (o : Ordering) : o.swap = .lt ↔ o = .gt := by
  cases o <;> simp [Ordering.swap]

theorem ord_swap_eq_eq (o : Ordering) : o.swap = .eq ↔ o = .eq := by
  cases o <;> simp [Ordering.swap]

theorem LawfulOrdCmp.refl {α : Type} {f : α → α → Ordering} (h : LawfulOrdCmp f) (a : α) :
    f a a = .eq := (h.eq_iff a a).mpr rfl

theorem LawfulOrdCmp.gt_iff_lt {α : Type} {f : α → α → Ordering} (h : LawfulOrdCmp f) (a b : α) :
    f a b = .gt ↔ f b a = .lt := by
  rw [← h.swap_eq b a, ord_swap_eq_gt]

theorem LawfulOrdCmp.gt_trans {α : Type} {f : α → α → Ordering} (h : LawfulOrdCmp f)
    {a b c : α} (h₁ : f a b = .gt) (h₂ : f b c = .gt) : f a c = .gt := by
  rw [h.gt_iff_lt] at h₁ h₂ ⊢
  exact h.lt_trans c b a h₂ h₁

theorem LawfulOrdCmp.not_lt_of_eq {α : Type} {f : α → α → Ordering} (h : LawfulOrdCmp f)
    {a b : α} (he : f a b = .eq) : f a b ≠ .lt := by
  rw [he]; intro hc; exact Ordering.noConfusion hc

theorem LawfulOrdCmp.asymm {α : Type} {f : α → α → Ordering} (h : LawfulOrdCmp f)
    {a b : α} (h₁ : f a b = .gt) : f b a ≠ .gt := by
  rw [h.gt_iff_lt] at h₁
  intro h₂
  rw [h.gt_iff_lt] at h₂
  have := h.lt_trans a b a h₂ h₁
  have hr := h.refl a
  rw [hr] at this
  exact Ordering.noConfusion this

/-- `le`-style transitivity for a lawful comparison: `≠ gt` is transitive. -/
theorem LawfulOrdCmp.le_trans {α : Type} {f : α → α → Ordering} (h : LawfulOrdCmp f)
    {a b c : α} (h₁ : f a b ≠ .gt) (h₂ : f b c ≠ .gt) : f a c ≠ .gt := by
  cases hab : f a b with
  | lt =>
    cases hbc : f b c with
    | lt => exact fun hc => by rw [h.lt_trans a b c hab hbc] at hc; exact Ordering.noConfusion hc
    | eq => have := (h.eq_iff b c).mp hbc; subst this
            exact fun hc => by rw [hab] at hc; exact Ordering.noConfusion hc
    | gt => exact absurd hbc h₂
  | eq => have := (h.eq_iff a b).mp hab; subst this; exact h₂
  | gt => exact absurd hab h₁

theorem LawfulOrdCmp.total_le {α : Type} {f : α → α → Ordering} (h : LawfulOrdCmp f)
    (a b : α) : f a b ≠ .gt ∨ f b a ≠ .gt := by
  cases hab : f a b with
  | lt => exact Or.inl (fun hc => Ordering.noConfusion hc)
  | eq => exact Or.inl (fun hc => Ordering.noConfusion hc)
  | gt => refine Or.inr ?_
          exact h.asymm hab

theorem lawful_cmpPair {α β : Type} {f : α → α → Ordering} {g : β → β → Ordering}
    (hf : LawfulOrdCmp f) (hg : LawfulOrdCmp g) : LawfulOrdCmp (cmpPair f g) := by
  constructor
  · intro a b
    simp only [cmpPair, ord_swap_then, hf.swap_eq, hg.swap_eq]
  · intro a b
    simp only [cmpPair, ord_then_eq_eq, hf.eq_iff, hg.eq_iff]
    constructor
    · rintro ⟨h1, h2⟩
      exact Prod.ext h1 h2
    · rintro rfl
      exact ⟨rfl, rfl⟩
  · intro a b c h₁ h₂
    simp only [cmpPair, ord_then_eq_lt] at h₁ h₂ ⊢
    rcases h₁ with h₁ | ⟨h₁e, h₁g⟩
    · rcases h₂ with h₂ | ⟨h₂e, h₂g⟩
      · exact Or.inl (hf.lt_trans _ _ _ h₁ h₂)
      · have := (hf.eq_iff b.1 c.1).mp h₂e
        exact Or.inl (this ▸ h₁)
    · have h1e' := (hf.eq_iff a.1 b.1).mp h₁e
      rcases h₂ with h₂ | ⟨h₂e, h₂g⟩
      · exact Or.inl (h1e' ▸ h₂)
      · refine Or.inr ⟨?_, hg.lt_trans _ _ _ h₁g h₂g⟩
        rw [hf.eq_iff]
        exact h1e'.trans ((hf.eq_iff b.1 c.1).mp h₂e)

theorem lexCompare_swap {α : Type} {f : α → α → Ordering} (hf : LawfulOrdCmp f) :
    ∀ a b : List α, (lexCompare f a b).swap = lexCompare f b a
  | [], [] => rfl
  | [], _ :: _ => rfl
  | _ :: _, [] => rfl
  | x :: xs, y :: ys => by
    simp only [lexCompare, ord_swap_then, hf.swap_eq, lexCompare_swap hf xs ys]

theorem lexCompare_eq_iff {α : Type} {f : α → α → Ordering} (hf : LawfulOrdCmp f) :
    ∀ a b : List α, lexCompare f a b = .eq ↔ a = b
  | [], [] => by simp [lexCompare]
  | [], y :: ys => by simp [lexCompare]
  | x :: xs, [] => by simp [lexCompare]
  | x :: xs, y :: ys => by
    simp only [lexCompare, ord_then_eq_eq, hf.eq_iff, lexCompare_eq_iff hf xs ys,
      List.cons.injEq]

theorem lexCompare_lt_trans {α : Type} {f : α → α → Ordering} (hf : LawfulOrdCmp f) :
    ∀ a b c : List α, lexCompare f a b = .lt → lexCompare f b c = .lt →
      lexCompare f a c = .lt
  | [], [], _, h₁, _ => by exact absurd h₁ (by simp [lexCompare])
  | [], _ :: _, [], _, h₂ => by exact absurd h₂ (by simp [lexCompare])
  | [], _ :: _, _ :: _, _, _ => by simp [lexCompare]
  | _ :: _, [], _, h₁, _ => by exact absurd h₁ (by simp [lexCompare])
  | _ :: _, _ :: _, [], _, h₂ => by exact absurd h₂ (by simp [lexCompare])
  | x :: xs, y :: ys, z :: zs, h₁, h₂ => by
    simp only [lexCompare, ord_then_eq_lt] at h₁ h₂ ⊢
    rcases h₁ with h₁ | ⟨h₁e, h₁l⟩
    · rcases h₂ with h₂ | ⟨h₂e, h₂l⟩
      · exact Or.inl (hf.lt_trans _ _ _ h₁ h₂)
      · have := (hf.eq_iff y z).mp h₂e
        exact Or.inl (this ▸ h₁)
    · have h1e' := (hf.eq_iff x y).mp h₁e
      rcases h₂ with h₂ | ⟨h₂e, h₂l⟩
      · exact Or.inl (h1e' ▸ h₂)
      · refine Or.inr ⟨?_, lexCompare_lt_trans hf xs ys zs h₁l h₂l⟩
        rw [hf.eq_iff]
        exact h1e'.trans ((hf.eq_iff y z).mp h₂e)

theorem lawful_lexCompare {α : Type} {f : α → α → Ordering} (hf : LawfulOrdCmp f) :
    LawfulOrdCmp (lexCompare f) :=
  ⟨lexCompare_swap hf, lexCompare_eq_iff hf, lexCompare_lt_trans hf⟩

theorem lawful_cmpNat : LawfulOrdCmp cmpNat := by
  constructor
  · intro a b
    exact Nat.compare_swap a b
  · intro a b
    exact Nat.compare_eq_eq
  · intro a b c h₁ h₂
    rw [cmpNat, Nat.compare_eq_lt] at h₁ h₂ ⊢
    omega

theorem char_toNat_inj {a b : Char} (h : a.toNat = b.toNat) : a = b := by
  have := congrArg Char.ofNat h
  rwa [Char.ofNat_toNat, Char.ofNat_toNat] at this

theorem lawful_cmpChar : LawfulOrdCmp cmpChar := by
  constructor
  · intro a b
    exact lawful_cmpNat.swap_eq a.toNat b.toNat
  · intro a b
    rw [cmpChar, lawful_cmpNat.eq_iff]
    exact ⟨char_toNat_inj, fun h => h ▸ rfl⟩
  · intro a b c h₁ h₂
    exact lawful_cmpNat.lt_trans _ _ _ h₁ h₂

theorem lawful_cmpPreId : LawfulOrdCmp cmpPreId := by
  constructor
  · intro a b
    cases a <;> cases b <;>
      simp only [cmpPreId, lawful_cmpNat.swap_eq, lexCompare_swap lawful_cmpChar] <;> rfl
  · intro a b
    cases a <;> cases b <;>
      simp [cmpPreId, lawful_cmpNat.eq_iff, lexCompare_eq_iff lawful_cmpChar]
  · intro a b c h₁ h₂
    cases a <;> cases b <;> cases c <;>
      simp only [cmpPreId] at h₁ h₂ ⊢ <;>
      first
      | rfl
      | exact Ordering.noConfusion h₁
      | exact Ordering.noConfusion h₂
      | exact lawful_cmpNat.lt_trans _ _ _ h₁ h₂
      | exact lexCompare_lt_trans lawful_cmpChar _ _ _ h₁ h₂

theorem lawful_cmpPreTop : LawfulOrdCmp cmpPreTop := by
  constructor
  · intro a b
    cases a <;> cases b <;>
      simp only [cmpPreTop, lexCompare_swap lawful_cmpPreId] <;> rfl
  · intro a b
    cases a <;> cases b <;>
      simp [cmpPreTop, lexCompare_eq_iff lawful_cmpPreId]
  · intro a b c h₁ h₂
    cases a <;> cases b <;> cases c <;>
      simp only [cmpPreTop] at h₁ h₂ ⊢ <;>
      first
      | rfl
      | exact Ordering.noConfusion h₁
      | exact Ordering.noConfusion h₂
      | exact lexCompare_lt_trans lawful_cmpPreId _ _ _ h₁ h₂

theorem lawful_semverCmpKey :
    LawfulOrdCmp (cmpPair cmpNat (cmpPair cmpNat (cmpPair cmpNat cmpPreTop))) :=
  lawful_cmpPair lawful_cmpNat
    (lawful_cmpPair lawful_cmpNat (lawful_cmpPair lawful_cmpNat lawful_cmpPreTop))

theorem compareSemVer_swap (a b : SemVer) :
    (compareSemVer a b).swap = compareSemVer b a :=
  lawful_semverCmpKey.swap_eq (svKey a) (svKey b)

theorem compareSemVer_eq_iff (a b : SemVer) :
    compareSemVer a b = .eq ↔ svKey a = svKey b :=
  lawful_semverCmpKey.eq_iff (svKey a) (svKey b)

theorem compareSemVer_lt_trans {a b c : SemVer}
    (h₁ : compareSemVer a b = .lt) (h₂ : compareSemVer b c = .lt) :
    compareSemVer a c = .lt :=
  lawful_semverCmpKey.lt_trans _ _ _ h₁ h₂

theorem compareSemVer_gt_trans {a b c : SemVer}
    (h₁ : compareSemVer a b = .gt) (h₂ : compareSemVer b c = .gt) :
    compareSemVer a c = .gt :=
  lawful_semverCmpKey.gt_trans h₁ h₂

theorem compareSemVer_refl (a : SemVer) : compareSemVer a a = .eq :=
  lawful_semverCmpKey.refl (svKey a)

theorem compareSemVer_asymm {a b : SemVer} (h : compareSemVer a b = .gt) :
    compareSemVer b a ≠ .gt :=
  lawful_semverCmpKey.asymm h

theorem compareSemVer_gt_iff (a b : SemVer) :
    compareSemVer a b = .gt ↔ compareSemVer b a = .lt :=
  lawful_semverCmpKey.gt_iff_lt (svKey a) (svKey b)

/-! ## Lemmas: map and set operations -/

theorem find?_map_overwrite {β : Type} (m : List (String × β)) (k : String) (v : β) :
    (m.map (fun p => if p.1 == k then (k, v) else p)).find? (fun p => p.1 == k)
      = if m.any (fun p => p.1 == k) then some (k, v) else none := by
  induction m with
  | nil => simp
  | cons p rest ih =>
    by_cases hp : p.1 = k
    · simp [List.find?, hp]
    · have hbeq : (p.1 == k) = false := beq_eq_false_iff_ne.mpr hp
      simp only [List.map_cons, List.any_cons, hbeq, Bool.false_or, if_neg,
        Bool.not_eq_true]
      rw [List.find?_cons_of_neg _ (by simpa using hp)]
      exact ih

theorem find?_append_absent {β : Type} (m : List (String × β)) (k : String) (v : β)
    (h : m.find? (fun p => p.1 == k) = none) :
    (m ++ [(k, v)]).find? (fun p => p.1 == k) = some (k, v) := by
  induction m with
  | nil => simp [List.find?]
  | cons p rest ih =>
    rw [List.find?_cons] at h
    rcases hbeq : (p.1 == k) with _ | _
    · rw [hbeq] at h
      simp only [List.cons_append]
      rw [List.find?_cons_of_neg _ (by simp [hbeq])]
      exact ih h
    · rw [hbeq] at h
      exact absurd h (by simp)

theorem find?_ne_overwrite {β : Type} (m : List (String × β)) (k k' : String) (v : β)
    (h : k' ≠ k) :
    (m.map (fun p => if p.1 == k then (k, v) else p)).find? (fun p => p.1 == k')
      = m.find? (fun p => p.1 == k') := by
  induction m with
  | nil => simp
  | cons p rest ih =>
    by_cases hp : p.1 = k
    · have hk : ((k : String) == k') = false := beq_eq_false_iff_ne.mpr (Ne.symm h)
      have hp' : (p.1 == k') = false := beq_eq_false_iff_ne.mpr (hp ▸ Ne.symm h)
      simp only [List.map_cons, if_pos (beq_iff_eq.mpr hp)]
      rw [List.find?_cons_of_neg _ (by simp [hk]), List.find?_cons_of_neg _ (by simp [hp']),
        ih]
    · have hif : (if p.1 == k then ((k, v) : String × β) else p) = p :=
        if_neg (by simpa using hp)
      simp only [List.map_cons, hif]
      by_cases hq : p.1 = k'
      · rw [List.find?_cons_of_pos _ (by simpa using hq),
          List.find?_cons_of_pos _ (by simpa using hq)]
      · rw [List.find?_cons_of_neg _ (by simpa using hq),
          List.find?_cons_of_neg _ (by simpa using hq), ih]

theorem mapGet_mapSet_self {β : Type} (m : List (String × β)) (k : String) (v : β) :
    mapGet (mapSet m k v) k = some v := by
  unfold mapGet mapSet
  by_cases h : m.any (fun p => p.1 == k)
  · rw [if_pos h, find?_map_overwrite, if_pos h]
  · rw [if_neg h, find?_append_absent]
    rw [List.find?_eq_none]
    intro x hx hbeq
    exact h (List.any_eq_true.mpr ⟨x, hx, hbeq⟩)

theorem mapGet_mapSet_ne {β : Type} (m : List (String × β)) (k k' : String) (v : β)
    (h : k' ≠ k) : mapGet (mapSet m k v) k' = mapGet m k' := by
  unfold mapGet mapSet
  by_cases hm : m.any (fun p => p.1 == k)
  · rw [if_pos hm, find?_ne_overwrite _ _ _ _ h]
  · rw [if_neg hm, List.find?_append]
    have : ([(k, v)].find? (fun p => p.1 == k')) = none := by
      simp [List.find?, beq_eq_false_iff_ne.mpr (Ne.symm h)]
    rw [this]
    cases m.find? (fun p => p.1 == k') <;> rfl

theorem mem_setAdd (s : List String) (x y : String) :
    y ∈ setAdd s x ↔ y ∈ s ∨ y = x := by
  unfold setAdd
  by_cases h : s.contains x
  · rw [if_pos h]
    have hx : x ∈ s := by simpa using h
    constructor
    · exact Or.inl
    · rintro (hy | rfl)
      · exact hy
      · exact hx
  · rw [if_neg h]
    simp

theorem nodup_setAdd (s : List String) (x : String) (h : s.Nodup) :
    (setAdd s x).Nodup := by
  unfold setAdd
  by_cases hc : s.contains x
  · rwa [if_pos hc]
  · rw [if_neg hc]
    have hx : x ∉ s := by simpa using hc
    simpa [List.nodup_append] using ⟨h, hx⟩

/-! ## Lemmas: string-level semver comparison -/

theorem ordBeq_gt (o : Ordering) : ((o == Ordering.gt) = true) ↔ o = .gt := by
  cases o <;> decide

theorem ordBeq_eq (o : Ordering) : ((o == Ordering.eq) = true) ↔ o = .eq := by
  cases o <;> decide

theorem semverValid_empty : semverValid "" = false := by decide

theorem semverValid_ne_empty {v : String} (h : semverValid v = true) : v ≠ "" := by
  intro hv
  rw [hv, semverValid_empty] at h
  exact Bool.noConfusion h

theorem semverGtB_some {a b : String} {x y : SemVer} (ha : parseSemver a = some x)
    (hb : parseSemver b = some y) : semverGtB a b = (compareSemVer x y == .gt) := by
  unfold semverGtB
  rw [ha, hb]

theorem semverGtB_none_left {a b : String} (h : parseSemver a = none) :
    semverGtB a b = false := by
  unfold semverGtB
  rw [h]

theorem semverGtB_right_invalid {a b : String} (h : parseSemver b = none) :
    semverGtB a b = false := by
  unfold semverGtB
  rw [h]
  cases parseSemver a <;> rfl

theorem semverEqB_some {a b : String} {x y : SemVer} (ha : parseSemver a = some x)
    (hb : parseSemver b = some y) : semverEqB a b = (compareSemVer x y == .eq) := by
  unfold semverEqB
  rw [ha, hb]

theorem semverLteB_some {a b : String} {x y : SemVer} (ha : parseSemver a = some x)
    (hb : parseSemver b = some y) : semverLteB a b = (compareSemVer x y != .gt) := by
  unfold semverLteB
  rw [ha, hb]

theorem semverGtB_trans {a b c : String} (h₁ : semverGtB a b = true)
    (h₂ : semverGtB b c = true) : semverGtB a c = true := by
  cases hpa : parseSemver a with
  | none => rw [semverGtB_none_left hpa] at h₁; exact Bool.noConfusion h₁
  | some x =>
    cases hpb : parseSemver b with
    | none => rw [semverGtB_right_invalid hpb] at h₁; exact Bool.noConfusion h₁
    | some y =>
      cases hpc : parseSemver c with
      | none => rw [semverGtB_right_invalid hpc] at h₂; exact Bool.noConfusion h₂
      | some z =>
        rw [semverGtB_some hpa hpb, ordBeq_gt] at h₁
        rw [semverGtB_some hpb hpc, ordBeq_gt] at h₂
        rw [semverGtB_some hpa hpc, ordBeq_gt]
        exact compareSemVer_gt_trans h₁ h₂

theorem semverGtB_irrefl (a : String) : semverGtB a a = false := by
  cases hpa : parseSemver a with
  | none => exact semverGtB_none_left hpa
  | some x =>
    rw [semverGtB_some hpa hpa, compareSemVer_refl]
    rfl

theorem semverGtB_asymm {a b : String} (h : semverGtB a b = true) :
    semverGtB b a = false := by
  cases hba : semverGtB b a with
  | false => rfl
  | true =>
    have := semverGtB_trans h hba
    rw [semverGtB_irrefl] at this
    exact Bool.noConfusion this

theorem semver_tri {a b : String} (ha : semverValid a = true) (hb : semverValid b = true) :
    semverGtB a b = true ∨ semverGtB b a = true ∨ semverEqB a b = true := by
  unfold semverValid at ha hb
  cases hpa : parseSemver a with
  | none => rw [hpa] at ha; exact absurd ha (by simp)
  | some x =>
    cases hpb : parseSemver b with
    | none => rw [hpb] at hb; exact absurd hb (by simp)
    | some y =>
      cases hcmp : compareSemVer x y with
      | lt =>
        refine Or.inr (Or.inl ?_)
        rw [semverGtB_some hpb hpa, ordBeq_gt]
        exact (compareSemVer_gt_iff y x).mpr hcmp
      | eq =>
        refine Or.inr (Or.inr ?_)
        rw [semverEqB_some hpa hpb, hcmp]
        rfl
      | gt =>
        refine Or.inl ?_
        rw [semverGtB_some hpa hpb, hcmp]
        rfl

theorem compareSemVer_congr_left {x y : SemVer} (h : svKey x = svKey y) (z : SemVer) :
    compareSemVer x z = compareSemVer y z := by
  unfold compareSemVer
  rw [h]

theorem semverEqB_congr_gt {a b : String} (h : semverEqB a b = true) (r : String) :
    semverGtB a r = semverGtB b r := by
  cases hpa : parseSemver a with
  | none => rw [semverEqB] at h; rw [hpa] at h
            exact absurd h (by cases parseSemver b <;> simp)
  | some x =>
    cases hpb : parseSemver b with
    | none => rw [semverEqB] at h; rw [hpa, hpb] at h; exact absurd h (by simp)
    | some y =>
      rw [semverEqB_some hpa hpb, ordBeq_eq, compareSemVer_eq_iff] at h
      cases hpr : parseSemver r with
      | none => rw [semverGtB_right_invalid hpr, semverGtB_right_invalid hpr]
      | some z =>
        rw [semverGtB_some hpa hpr, semverGtB_some hpb hpr,
          compareSemVer_congr_left h]

theorem semverLteB_eq_not_gt {a b : String} {x y : SemVer}
    (ha : parseSemver a = some x) (hb : parseSemver b = some y) :
    semverLteB a b = !(semverGtB a b) := by
  rw [semverLteB_some ha hb, semverGtB_some ha hb]
  cases compareSemVer x y <;> rfl

/-! ## Lemmas: the watch-index fold -/

theorem mapGet_watchStep (m : List (String × String)) (e : NV) (k : String) :
    mapGet (watchStep m e) k =
      if (jsToLower e.name == k) && semverValid e.version then
        verBest (mapGet m k) e.version
      else mapGet m k := by
  by_cases hv : semverValid e.version = true
  · by_cases hk : jsToLower e.name = k
    · rw [if_pos (by simp [hk, hv])]
      unfold watchStep
      rw [if_pos hv, hk]
      cases hm : mapGet m k with
      | none => rw [mapGet_mapSet_self]; rfl
      | some prev =>
        simp only [verBest]
        by_cases hc : (prev == "" || semverGtB e.version prev) = true
        · rw [if_pos hc, if_pos hc, mapGet_mapSet_self]
        · rw [if_neg hc, if_neg hc, hm]
    · rw [if_neg (by simp [hk])]
      unfold watchStep
      rw [if_pos hv]
      cases hm : mapGet m (jsToLower e.name) with
      | none => exact mapGet_mapSet_ne _ _ _ _ (Ne.symm hk)
      | some prev =>
        show mapGet
            (if (prev == "" || semverGtB e.version prev) then
              mapSet m (jsToLower e.name) e.version
            else m) k = mapGet m k
        by_cases hc : (prev == "" || semverGtB e.version prev) = true
        · rw [if_pos hc]
          exact mapGet_mapSet_ne _ _ _ _ (Ne.symm hk)
        · rw [if_neg hc]
  · rw [if_neg (by simp [hv])]
    unfold watchStep
    rw [if_neg hv]

theorem mapGet_foldl_watchStep (entries : List NV) (m : List (String × String))
    (k : String) :
    mapGet (entries.foldl watchStep m) k
      = (wiVersions entries k).foldl verBest (mapGet m k) := by
  induction entries generalizing m with
  | nil => rfl
  | cons e rest ih =>
    rw [List.foldl_cons, ih]
    unfold wiVersions
    by_cases hp : ((jsToLower e.name == k) && semverValid e.version) = true
    · rw [List.filter_cons, if_pos hp, List.map_cons, List.foldl_cons]
      rw [mapGet_watchStep, if_pos hp]
    · rw [List.filter_cons, if_neg hp]
      rw [mapGet_watchStep, if_neg hp]

theorem buildWatchIndex_char (entries : List NV) (k : String) :
    mapGet (buildWatchIndex entries) k = (wiVersions entries k).foldl verBest none :=
  mapGet_foldl_watchStep entries [] k

theorem wiVersions_valid (entries : List NV) (k : String) :
    ∀ v ∈ wiVersions entries k, semverValid v = true := by
  intro v hv
  unfold wiVersions at hv
  rcases List.mem_map.mp hv with ⟨e, he, rfl⟩
  have h2 := (List.mem_filter.mp he).2
  rw [Bool.and_eq_true] at h2
  exact h2.2

theorem foldl_verBest_some (vs : List String) (a : String) (hva : semverValid a = true)
    (hvs : ∀ v ∈ vs, semverValid v = true) :
    ∃ r, vs.foldl verBest (some a) = some r ∧ (r = a ∨ r ∈ vs) ∧
      semverGtB a r = false ∧ ∀ w ∈ vs, semverGtB w r = false := by
  induction vs generalizing a with
  | nil => exact ⟨a, rfl, Or.inl rfl, semverGtB_irrefl a, by simp⟩
  | cons v rest ih =>
    have hvv : semverValid v = true := hvs v (List.mem_cons_self v rest)
    have hvrest : ∀ w ∈ rest, semverValid w = true :=
      fun w hw => hvs w (List.mem_cons_of_mem _ hw)
    have hane : (a == "") = false :=
      beq_eq_false_iff_ne.mpr (semverValid_ne_empty hva)
    rw [List.foldl_cons]
    cases hgt : semverGtB v a with
    | true =>
      have hstep : verBest (some a) v = some v := by
        simp [verBest, hane, hgt]
      rw [hstep]
      rcases ih v hvv hvrest with ⟨r, hr, hmem, hvr, hall⟩
      refine ⟨r, hr, Or.inr ?_, ?_, ?_⟩
      · rcases hmem with rfl | hmem
        · exact List.mem_cons_self r rest
        · exact List.mem_cons_of_mem _ hmem
      · cases har : semverGtB a r with
        | false => rfl
        | true =>
          have := semverGtB_trans hgt har
          rw [this] at hvr
          exact Bool.noConfusion hvr
      · intro w hw
        rcases List.mem_cons.mp hw with rfl | hw
        · exact hvr
        · exact hall w hw
    | false =>
      have hstep : verBest (some a) v = some a := by
        simp [verBest, hane, hgt]
      rw [hstep]
      rcases ih a hva hvrest with ⟨r, hr, hmem, hvr, hall⟩
      refine ⟨r, hr, ?_, hvr, ?_⟩
      · rcases hmem with rfl | hmem
        · exact Or.inl rfl
        · exact Or.inr (List.mem_cons_of_mem _ hmem)
      · intro w hw
        rcases List.mem_cons.mp hw with rfl | hw
        · cases hwr : semverGtB w r with
          | false => rfl
          | true =>
            rcases semver_tri hvv hva with h1 | h1 | h1
            · rw [h1] at hgt; exact Bool.noConfusion hgt
            · have := semverGtB_trans h1 hwr
              rw [this] at hvr
              exact Bool.noConfusion hvr
            · rw [semverEqB_congr_gt h1 r] at hwr
              rw [hwr] at hvr
              exact Bool.noConfusion hvr
        · exact hall w hw

theorem foldl_verBest_none (vs : List String) (hvs : ∀ v ∈ vs, semverValid v = true) :
    (vs = [] ∧ vs.foldl verBest none = none) ∨
      ∃ r, vs.foldl verBest none = some r ∧ r ∈ vs ∧
        ∀ w ∈ vs, semverGtB w r = false := by
  cases vs with
  | nil => exact Or.inl ⟨rfl, rfl⟩
  | cons v rest =>
    refine Or.inr ?_
    have hvv : semverValid v = true := hvs v (List.mem_cons_self v rest)
    have hvrest : ∀ w ∈ rest, semverValid w = true :=
      fun w hw => hvs w (List.mem_cons_of_mem _ hw)
    rw [List.foldl_cons]
    rcases foldl_verBest_some rest v hvv hvrest with ⟨r, hr, hmem, hvr, hall⟩
    refine ⟨r, hr, ?_, ?_⟩
    · rcases hmem with rfl | hmem
      · exact List.mem_cons_self r rest
      · exact List.mem_cons_of_mem _ hmem
    · intro w hw
      rcases List.mem_cons.mp hw with rfl | hw
      · exact hvr
      · exact hall w hw

theorem foldl_verBest_absorb (vs : List String) (r : String) (hrne : (r == "") = false)
    (hall : ∀ w ∈ vs, semverGtB w r = false) :
    vs.foldl verBest (some r) = some r := by
  induction vs with
  | nil => rfl
  | cons v rest ih =>
    rw [List.foldl_cons]
    have hstep : verBest (some r) v = some r := by
      simp [verBest, hrne, hall v (List.mem_cons_self v rest)]
    rw [hstep]
    exact ih (fun w hw => hall w (List.mem_cons_of_mem _ hw))

theorem semverEqB_symm (a b : String) : semverEqB a b = semverEqB b a := by
  cases hpa : parseSemver a with
  | none =>
    unfold semverEqB
    rw [hpa]
    cases parseSemver b <;> rfl
  | some x =>
    cases hpb : parseSemver b with
    | none =>
      unfold semverEqB
      rw [hpa, hpb]
    | some y =>
      rw [semverEqB_some hpa hpb, semverEqB_some hpb hpa, ← compareSemVer_swap x y]
      cases compareSemVer x y <;> rfl

theorem semverValid_parse_some {v : String} (h : semverValid v = true) :
    ∃ x, parseSemver v = some x := by
  unfold semverValid at h
  cases hp : parseSemver v with
  | none => rw [hp] at h; exact absurd h (by simp)
  | some x => exact ⟨x, rfl⟩

theorem verBest_comm2 {x y : String} (hx : semverValid x = true) (hy : semverValid y = true)
    (hdi : semverGtB x y = true ∨ semverGtB y x = true) :
    verBest (some x) y = verBest (some y) x := by
  have hxne : (x == "") = false := beq_eq_false_iff_ne.mpr (semverValid_ne_empty hx)
  have hyne : (y == "") = false := beq_eq_false_iff_ne.mpr (semverValid_ne_empty hy)
  rcases hdi with h | h
  · have h' := semverGtB_asymm h
    simp [verBest, hxne, hyne, h, h']
  · have h' := semverGtB_asymm h
    simp [verBest, hxne, hyne, h, h']

theorem verBest_comm {x y : String} (hx : semverValid x = true) (hy : semverValid y = true)
    (hxy : x = y ∨ semverEqB x y = false) (z : Option String) :
    verBest (verBest z x) y = verBest (verBest z y) x := by
  rcases hxy with rfl | hne
  · rfl
  have hdi : semverGtB x y = true ∨ semverGtB y x = true := by
    rcases semver_tri hx hy with h | h | h
    · exact Or.inl h
    · exact Or.inr h
    · rw [h] at hne; exact Bool.noConfusion hne
  cases z with
  | none => exact verBest_comm2 hx hy hdi
  | some p =>
    by_cases hp : (p == "") = true
    · have e1 : verBest (some p) x = some x := by simp [verBest, hp]
      have e2 : verBest (some p) y = some y := by simp [verBest, hp]
      rw [e1, e2]
      exact verBest_comm2 hx hy hdi
    · have hpne : (p == "") = false := by
        cases hq : (p == "") with
        | true => exact absurd hq hp
        | false => rfl
      by_cases hvp : semverValid p = true
      · cases hc1 : semverGtB x p with
        | true =>
          cases hc2 : semverGtB y p with
          | true =>
            have e1 : verBest (some p) x = some x := by simp [verBest, hpne, hc1]
            have e2 : verBest (some p) y = some y := by simp [verBest, hpne, hc2]
            rw [e1, e2]
            exact verBest_comm2 hx hy hdi
          | false =>
            have hyx : semverGtB y x = false := by
              cases hq : semverGtB y x with
              | false => rfl
              | true =>
                have := semverGtB_trans hq hc1
                rw [this] at hc2
                exact Bool.noConfusion hc2
            have hxne : (x == "") = false :=
              beq_eq_false_iff_ne.mpr (semverValid_ne_empty hx)
            have e1 : verBest (some p) x = some x := by simp [verBest, hpne, hc1]
            have e2 : verBest (some p) y = some p := by simp [verBest, hpne, hc2]
            have e3 : verBest (some x) y = some x := by simp [verBest, hxne, hyx]
            rw [e1, e2, e3, e1]
        | false =>
          cases hc2 : semverGtB y p with
          | true =>
            have hxy' : semverGtB x y = false := by
              cases hq : semverGtB x y with
              | false => rfl
              | true =>
                have := semverGtB_trans hq hc2
                rw [this] at hc1
                exact Bool.noConfusion hc1
            have hyne : (y == "") = false :=
              beq_eq_false_iff_ne.mpr (semverValid_ne_empty hy)
            have e1 : verBest (some p) x = some p := by simp [verBest, hpne, hc1]
            have e2 : verBest (some p) y = some y := by simp [verBest, hpne, hc2]
            have e3 : verBest (some y) x = some y := by simp [verBest, hyne, hxy']
            rw [e2, e1, e3, e2]
          | false =>
            have e1 : verBest (some p) x = some p := by simp [verBest, hpne, hc1]
            have e2 : verBest (some p) y = some p := by simp [verBest, hpne, hc2]
            rw [e1, e2, e1]
      · have hpnone : parseSemver p = none := by
          cases hq : parseSemver p with
          | none => rfl
          | some w => exact absurd (by unfold semverValid; rw [hq]; rfl) hvp
        have hc1 : semverGtB x p = false := semverGtB_right_invalid hpnone
        have hc2 : semverGtB y p = false := semverGtB_right_invalid hpnone
        have e1 : verBest (some p) x = some p := by simp [verBest, hpne, hc1]
        have e2 : verBest (some p) y = some p := by simp [verBest, hpne, hc2]
        rw [e1, e2, e1]

theorem wiVersions_perm {l₁ l₂ : List NV} (h : l₁.Perm l₂) (k : String) :
    (wiVersions l₁ k).Perm (wiVersions l₂ k) :=
  (h.filter _).map _

theorem wiVersions_append (l₁ l₂ : List NV) (k : String) :
    wiVersions (l₁ ++ l₂) k = wiVersions l₁ k ++ wiVersions l₂ k := by
  unfold wiVersions
  rw [List.filter_append, List.map_append]

theorem wiVersions_pairwise {l : List NV} (hd : WatchDistinct l) (k : String) :
    List.Pairwise (fun v w => v = w ∨ semverEqB v w = false) (wiVersions l k) := by
  unfold wiVersions
  rw [List.pairwise_map]
  unfold WatchDistinct at hd
  have hsub : List.Pairwise
      (fun a b : NV => jsToLower a.name = jsToLower b.name →
        semverValid a.version = true → semverValid b.version = true →
        (a.version = b.version ∨ semverEqB a.version b.version = false))
      (l.filter (fun e => (jsToLower e.name == k) && semverValid e.version)) :=
    List.Pairwise.sublist (List.filter_sublist l) hd
  refine hsub.imp_of_mem ?_
  intro a b ha hb hr
  have hpa := (List.mem_filter.mp ha).2
  have hpb := (List.mem_filter.mp hb).2
  rw [Bool.and_eq_true] at hpa hpb
  have hka : jsToLower a.name = k := by
    have := hpa.1
    rwa [beq_iff_eq] at this
  have hkb : jsToLower b.name = k := by
    have := hpb.1
    rwa [beq_iff_eq] at this
  exact hr (hka.trans hkb.symm) hpa.2 hpb.2

theorem buildWatchIndex_perm {l₁ l₂ : List NV} (hperm : l₁.Perm l₂)
    (hd : WatchDistinct l₁) (k : String) :
    mapGet (buildWatchIndex l₁) k = mapGet (buildWatchIndex l₂) k := by
  rw [buildWatchIndex_char, buildWatchIndex_char]
  have hvperm := wiVersions_perm hperm k
  refine hvperm.foldl_eq' ?_ none
  intro x hx y hy z
  by_cases hxy : x = y
  · subst hxy; rfl
  have hsymm : Symmetric (fun v w : String => v = w ∨ semverEqB v w = false) := by
    intro v w hvw
    rcases hvw with rfl | hvw
    · exact Or.inl rfl
    · refine Or.inr ?_
      rw [semverEqB_symm]
      exact hvw
  have hrel := (wiVersions_pairwise hd k).forall hsymm hx hy hxy
  exact verBest_comm (wiVersions_valid _ _ x hx) (wiVersions_valid _ _ y hy) hrel z

theorem buildWatchIndex_idem (l : List NV) (k : String) :
    mapGet (buildWatchIndex (l ++ l)) k = mapGet (buildWatchIndex l) k := by
  rw [buildWatchIndex_char, buildWatchIndex_char, wiVersions_append, List.foldl_append]
  rcases foldl_verBest_none (wiVersions l k) (wiVersions_valid l k) with
    ⟨hnil, _⟩ | ⟨r, hr, hmem, hall⟩
  · rw [hnil]
    rfl
  · rw [hr]
    exact foldl_verBest_absorb _ r
      (beq_eq_false_iff_ne.mpr (semverValid_ne_empty (wiVersions_valid _ _ r hmem))) hall

theorem buildWatchIndex_none_iff (l : List NV) (k : String) :
    mapGet (buildWatchIndex l) k = none ↔ wiVersions l k = [] := by
  rw [buildWatchIndex_char]
  rcases foldl_verBest_none (wiVersions l k) (wiVersions_valid l k) with
    ⟨hnil, hres⟩ | ⟨r, hr, hmem, _⟩
  · rw [hres, hnil]
    simp
  · rw [hr]
    constructor
    · intro h; exact absurd h (by simp)
    · intro h
      rw [h] at hmem
      exact absurd hmem (List.not_mem_nil r)

theorem buildWatchIndex_max (l : List NV) (k : String) (v : String)
    (h : mapGet (buildWatchIndex l) k = some v) :
    v ∈ wiVersions l k ∧ ∀ w ∈ wiVersions l k, semverGtB w v = false := by
  rw [buildWatchIndex_char] at h
  rcases foldl_verBest_none (wiVersions l k) (wiVersions_valid l k) with
    ⟨_, hres⟩ | ⟨r, hr, hmem, hall⟩
  · rw [hres] at h; exact absurd h (by simp)
  · rw [hr] at h
    obtain rfl : r = v := by injection h
    exact ⟨hmem, hall⟩

theorem buildWatchIndex_values_valid {l : List NV} {k v : String}
    (h : mapGet (buildWatchIndex l) k = some v) : semverValid v = true :=
  wiVersions_valid l k v (buildWatchIndex_max l k v h).1

/-! ## Lemmas: a valid semver string contains no `@`

The strict semver grammar draws all its characters from digits, letters,
`.`, `-`, `+`, an optional leading `v` and surrounding whitespace, so `@`
never occurs in a string accepted by `parseSemver`.  This is what lets the
scanner recover the name and the version from a `name@version` match key by
splitting at the last `@`. -/

theorem mem_dropWhile_of_not {p : Char → Bool} {x : Char} :
    ∀ {l : List Char}, x ∈ l → p x = false → x ∈ l.dropWhile p := by
  intro l hx hp
  induction l with
  | nil => cases hx
  | cons c cs ih =>
    rw [List.dropWhile_cons]
    by_cases hc : p c = true
    · rw [if_pos hc]
      rcases List.mem_cons.mp hx with rfl | hx'
      · rw [hp] at hc; exact Bool.noConfusion hc
      · exact ih hx'
    · rw [if_neg hc]
      exact hx

theorem mem_jsTrimChars_of_at {cs : List Char} (h : '@' ∈ cs) : '@' ∈ jsTrimChars cs := by
  unfold jsTrimChars
  have h1 : '@' ∈ cs.dropWhile jsWhitespace := mem_dropWhile_of_not h (by decide)
  have h2 : '@' ∈ (cs.dropWhile jsWhitespace).reverse := List.mem_reverse.mpr h1
  have h3 : '@' ∈ (cs.dropWhile jsWhitespace).reverse.dropWhile jsWhitespace :=
    mem_dropWhile_of_not h2 (by decide)
  exact List.mem_reverse.mpr h3

theorem mem_dropV_of_at {cs : List Char} (h : '@' ∈ cs) : '@' ∈ dropV cs := by
  unfold dropV
  split
  next rest =>
    rcases List.mem_cons.mp h with hv | hr
    · exact absurd hv (by decide)
    · exact hr
  next => exact h

theorem parseIdsAux_none_of_empty {cs : List Char}
    (hemp : (cs.takeWhile isIdChar).isEmpty = true) : parseIdsAux cs = none := by
  rw [parseIdsAux, if_pos hemp]

theorem parseIdsAux_dot {cs rest2 : List Char}
    (hemp : ¬ (cs.takeWhile isIdChar).isEmpty = true)
    (hr : cs.dropWhile isIdChar = '.' :: rest2) :
    parseIdsAux cs = match parseIdsAux rest2 with
      | some (ids, r) => some (cs.takeWhile isIdChar :: ids, r)
      | none => none := by
  rw [parseIdsAux, if_neg hemp]
  split
  next b heq =>
    rw [hr] at heq
    injection heq with h1 h2
    subst h2
    rfl
  next heq => exact absurd hr (heq rest2)

theorem parseIdsAux_nodot {cs : List Char}
    (hemp : ¬ (cs.takeWhile isIdChar).isEmpty = true)
    (hnd : ∀ rest2, cs.dropWhile isIdChar = '.' :: rest2 → False) :
    parseIdsAux cs = some ([cs.takeWhile isIdChar], cs.dropWhile isIdChar) := by
  rw [parseIdsAux, if_neg hemp]
  split
  next b heq => exact absurd heq (hnd b)
  next => rfl

theorem parseIdsAux_keeps_at (cs : List Char) :
    ∀ ids r, parseIdsAux cs = some (ids, r) → '@' ∈ cs → '@' ∈ r := by
  induction cs using parseIdsAux.induct with
  | case1 cs hemp =>
    intro ids r h hat
    rw [parseIdsAux_none_of_empty hemp] at h
    exact absurd h (by simp)
  | case2 cs hemp rest2 hr ids0 r0 hsome ih =>
    intro ids r h hat
    rw [parseIdsAux_dot hemp hr] at h
    have hdrop : '@' ∈ cs.dropWhile isIdChar := mem_dropWhile_of_not hat (by decide)
    rw [hr] at hdrop
    have hrest : '@' ∈ rest2 := by
      rcases List.mem_cons.mp hdrop with hdot | hm
      · exact absurd hdot (by decide)
      · exact hm
    rw [hsome] at h
    have h2 : some (cs.takeWhile isIdChar :: ids0, r0) = some (ids, r) := h
    injection h2 with h3
    have hr2 : r0 = r := congrArg Prod.snd h3
    rw [← hr2]
    exact ih ids0 r0 hsome hrest
  | case3 cs hemp rest2 hr hnone =>
    intro ids r h hat
    rw [parseIdsAux_dot hemp hr, hnone] at h
    exact absurd h (by simp)
  | case4 cs hemp hnd =>
    intro ids r h hat
    rw [parseIdsAux_nodot hemp hnd] at h
    injection h with h3
    have hr2 : cs.dropWhile isIdChar = r := congrArg Prod.snd h3
    rw [← hr2]
    exact mem_dropWhile_of_not hat (by decide)

theorem parseSuffix_no_at {cs : List Char} {res : List PreId × List (List Char)}
    (h : parseSuffix cs = some res) : '@' ∉ cs := by
  intro hat
  unfold parseSuffix at h
  split at h
  · cases hat
  · rename_i rest
    have hrest : '@' ∈ rest := by
      rcases List.mem_cons.mp hat with hd | hm
      · exact absurd hd (by decide)
      · exact hm
    split at h
    · exact absurd h (by simp)
    · rename_i ids r heq
      have hatr : '@' ∈ r := parseIdsAux_keeps_at rest ids r heq hrest
      split at h
      · exact absurd h (by simp)
      · rename_i pre hpre
        split at h
        · cases hatr
        · rename_i rest2
          have hrest2 : '@' ∈ rest2 := by
            rcases List.mem_cons.mp hatr with hd | hm
            · exact absurd hd (by decide)
            · exact hm
          split at h
          · exact absurd h (by simp)
          · rename_i bids r2 heq2
            have hatr2 : '@' ∈ r2 := parseIdsAux_keeps_at rest2 bids r2 heq2 hrest2
            split at h
            · rename_i hr2
              rw [List.isEmpty_iff] at hr2
              rw [hr2] at hatr2
              cases hatr2
            · exact absurd h (by simp)
        · exact absurd h (by simp)
  · rename_i rest
    have hrest : '@' ∈ rest := by
      rcases List.mem_cons.mp hat with hd | hm
      · exact absurd hd (by decide)
      · exact hm
    split at h
    · exact absurd h (by simp)
    · rename_i bids r2 heq2
      have hatr2 : '@' ∈ r2 := parseIdsAux_keeps_at rest bids r2 heq2 hrest
      split at h
      · rename_i hr2
        rw [List.isEmpty_iff] at hr2
        rw [hr2] at hatr2
        cases hatr2
      · exact absurd h (by simp)
  · exact absurd h (by simp)

theorem parseSemVerCore_no_at {cs : List Char} {v : SemVer}
    (h : parseSemVerCore cs = some v) : '@' ∉ cs := by
  intro hat
  unfold parseSemVerCore at h
  simp only [spanDigits] at h
  have hat1 : '@' ∈ dropV cs := mem_dropV_of_at hat
  split at h
  · exact absurd h (by simp)
  · split at h
    · rename_i r2 heq1
      have hd1 : '@' ∈ (dropV cs).dropWhile Char.isDigit :=
        mem_dropWhile_of_not hat1 (by decide)
      rw [heq1] at hd1
      have hat2 : '@' ∈ r2 := by
        rcases List.mem_cons.mp hd1 with hd | hm
        · exact absurd hd (by decide)
        · exact hm
      split at h
      · exact absurd h (by simp)
      · split at h
        · rename_i r4 heq2
          have hd2 : '@' ∈ r2.dropWhile Char.isDigit :=
            mem_dropWhile_of_not hat2 (by decide)
          rw [heq2] at hd2
          have hat3 : '@' ∈ r4 := by
            rcases List.mem_cons.mp hd2 with hd | hm
            · exact absurd hd (by decide)
            · exact hm
          split at h
          · exact absurd h (by simp)
          · split at h
            · exact absurd h (by simp)
            · rename_i pr hsuf
              have hd3 : '@' ∈ r4.dropWhile Char.isDigit :=
                mem_dropWhile_of_not hat3 (by decide)
              exact parseSuffix_no_at hsuf hd3
        · exact absurd h (by simp)
    · exact absurd h (by simp)

theorem semverValid_no_at {s : String} (h : semverValid s = true) : '@' ∉ s.toList := by
  intro hat
  rcases semverValid_parse_some h with ⟨x, hx⟩
  unfold parseSemver at hx
  by_cases hlen : s.length > 256
  · rw [if_pos hlen] at hx
    exact absurd hx (by simp)
  · rw [if_neg hlen] at hx
    exact parseSemVerCore_no_at hx (mem_jsTrimChars_of_at hat)

/-! ## Lemmas: recovering name and version from a match key -/

theorem string_toList_append (a b : String) : (a ++ b).toList = a.toList ++ b.toList := by
  cases a
  cases b
  rfl

theorem keyNameVersion_toList (n v : String) :
    (keyNameVersion n v).toList = (jsToLower n).toList ++ '@' :: v.toList := by
  unfold keyNameVersion
  rw [string_toList_append, string_toList_append]
  rw [List.append_assoc]
  rfl

theorem lastIdxOf_eq_none {c : Char} : ∀ {l : List Char}, c ∉ l → lastIdxOf c l = none := by
  intro l hc
  induction l with
  | nil => rfl
  | cons x xs ih =>
    unfold lastIdxOf
    rw [ih (fun hm => hc (List.mem_cons_of_mem _ hm))]
    rw [if_neg]
    intro hbeq
    exact hc (by rw [beq_iff_eq] at hbeq; rw [hbeq]; exact List.mem_cons_self _ _)

theorem lastIdxOf_append_some {c : Char} {ys : List Char} {j : Nat}
    (h : lastIdxOf c ys = some j) :
    ∀ xs : List Char, lastIdxOf c (xs ++ ys) = some (xs.length + j) := by
  intro xs
  induction xs with
  | nil =>
    rw [List.nil_append, h]
    rw [List.length_nil, Nat.zero_add]
  | cons x xs ih =>
    rw [List.cons_append]
    unfold lastIdxOf
    rw [ih]
    show some (xs.length + j + 1) = some ((x :: xs).length + j)
    rw [List.length_cons]
    congr 1
    omega

theorem lastIdxOf_key (n v : String) (hv : '@' ∉ v.toList) :
    lastIdxOf '@' (keyNameVersion n v).toList = some (jsToLower n).toList.length := by
  rw [keyNameVersion_toList]
  have h1 : lastIdxOf '@' ('@' :: v.toList) = some 0 := by
    unfold lastIdxOf
    rw [lastIdxOf_eq_none hv]
    rw [if_pos (by rfl)]
  rw [lastIdxOf_append_some h1, Nat.add_zero]

theorem jsSliceNorm_nonneg {n : Int} {j : Nat} (h : (j : Int) ≤ n) :
    jsSliceNorm n j = j := by
  unfold jsSliceNorm
  rw [if_neg (by omega)]
  omega

theorem recOf_key (n v : String) (hv : '@' ∉ v.toList) (set : List String) :
    recOf (keyNameVersion n v, set) =
      { package := jsToLower n, version := v,
        repositories := List.insertionSort strOrd set } := by
  have hlen : (keyNameVersion n v).toList.length
      = (jsToLower n).toList.length + 1 + v.toList.length := by
    rw [keyNameVersion_toList]
    simp [List.length_append]
    omega
  have hat : recAt (keyNameVersion n v) = ((jsToLower n).toList.length : Int) := by
    unfold recAt
    rw [lastIdxOf_key n v hv]
  unfold recOf
  congr 1
  · rw [hat]
    have hnorm0 : jsSliceNorm (keyNameVersion n v).toList.length 0 = 0 := by
      unfold jsSliceNorm
      rw [if_neg (by omega)]
      omega
    have hnormA : jsSliceNorm (keyNameVersion n v).toList.length
        ((jsToLower n).toList.length : Int) = (jsToLower n).toList.length := by
      apply jsSliceNorm_nonneg
      omega
    unfold jsSliceChars
    rw [hnorm0, hnormA, List.drop_zero, keyNameVersion_toList]
    rw [List.take_left' rfl]
    exact String.asString_toList _
  · rw [hat]
    have hnormB : jsSliceNorm (keyNameVersion n v).toList.length
        ((keyNameVersion n v).toList.length : Int) = (keyNameVersion n v).toList.length := by
      apply jsSliceNorm_nonneg
      omega
    have hnormA : jsSliceNorm (keyNameVersion n v).toList.length
        (((jsToLower n).toList.length : Int) + 1) = (jsToLower n).toList.length + 1 := by
      have : (((jsToLower n).toList.length : Int) + 1)
          = (((jsToLower n).toList.length + 1 : Nat) : Int) := by omega
      rw [this]
      apply jsSliceNorm_nonneg
      omega
    unfold jsSliceChars
    rw [hnormB, hnormA, List.take_length, keyNameVersion_toList]
    have hsplit : (jsToLower n).toList ++ '@' :: v.toList
        = ((jsToLower n).toList ++ ['@']) ++ v.toList := by
      rw [List.append_assoc]
      rfl
    rw [hsplit, List.drop_left' (by simp)]
    exact String.asString_toList _

/-! ## Lemmas: lowercasing is idempotent; the sort relations are total orders -/

theorem char_toNat_ofNat_valid {n : Nat} (h : n < 0xd800) :
    (Char.ofNat n).toNat = n := by
  rw [Char.ofNat, dif_pos (Or.inl h)]
  rfl

theorem lowerChar_idem (c : Char) : lowerChar (lowerChar c) = lowerChar c := by
  unfold lowerChar
  by_cases hc : (65 ≤ c.toNat && c.toNat ≤ 90) = true
  · rw [if_pos hc]
    rw [Bool.and_eq_true] at hc
    have h65 : 65 ≤ c.toNat := by
      have := hc.1
      simpa using this
    have h90 : c.toNat ≤ 90 := by
      have := hc.2
      simpa using this
    have hvalid : c.toNat + 32 < 0xd800 := by omega
    have htn : (Char.ofNat (c.toNat + 32)).toNat = c.toNat + 32 :=
      char_toNat_ofNat_valid hvalid
    rw [if_neg]
    rw [Bool.and_eq_true]
    rintro ⟨_, hb⟩
    rw [htn] at hb
    have : c.toNat + 32 ≤ 90 := by simpa using hb
    omega
  · rw [if_neg hc, if_neg hc]

theorem ordBne_gt (o : Ordering) : ((o != Ordering.gt) = true) ↔ o ≠ .gt := by
  cases o <;> decide

theorem jsToLower_idem (s : String) : jsToLower (jsToLower s) = jsToLower s := by
  unfold jsToLower
  rw [List.toList_asString, List.map_map]
  have : lowerChar ∘ lowerChar = lowerChar := by
    funext c
    exact lowerChar_idem c
  rw [this]

theorem strLe_total (a b : String) : strLe a b = true ∨ strLe b a = true := by
  unfold strLe
  rcases (lawful_lexCompare lawful_cmpChar).total_le a.toList b.toList with h | h
  · exact Or.inl ((ordBne_gt _).mpr h)
  · exact Or.inr ((ordBne_gt _).mpr h)

theorem strLe_trans {a b c : String} (h₁ : strLe a b = true) (h₂ : strLe b c = true) :
    strLe a c = true := by
  unfold strLe at h₁ h₂ ⊢
  exact (ordBne_gt _).mpr
    ((lawful_lexCompare lawful_cmpChar).le_trans ((ordBne_gt _).mp h₁) ((ordBne_gt _).mp h₂))

instance : IsTotal String strOrd := ⟨strLe_total⟩

instance : IsTrans String strOrd := ⟨fun _ _ _ => strLe_trans⟩

theorem matchLe_total (a b : MatchRecord) : matchLe a b ∨ matchLe b a := by
  unfold matchLe matchLeB
  by_cases hp : a.package = b.package
  · rw [if_pos (beq_iff_eq.mpr hp), if_pos (beq_iff_eq.mpr hp.symm)]
    exact strLe_total a.version b.version
  · rw [if_neg (by simpa using hp), if_neg (by simpa using fun h => hp h.symm)]
    exact strLe_total a.package b.package

theorem strLe_antisymm {a b : String} (h₁ : strLe a b = true) (h₂ : strLe b a = true) :
    a = b := by
  unfold strLe at h₁ h₂
  cases hc : lexCompare cmpChar a.toList b.toList with
  | lt =>
    have hgt : lexCompare cmpChar b.toList a.toList = .gt :=
      ((lawful_lexCompare lawful_cmpChar).gt_iff_lt b.toList a.toList).mpr hc
    rw [hgt] at h₂
    exact absurd h₂ (by decide)
  | eq =>
    have := (lexCompare_eq_iff lawful_cmpChar a.toList b.toList).mp hc
    exact String.toList_inj.mp this
  | gt =>
    rw [hc] at h₁
    exact absurd h₁ (by decide)

theorem matchLe_trans {a b c : MatchRecord} (h₁ : matchLe a b) (h₂ : matchLe b c) :
    matchLe a c := by
  unfold matchLe matchLeB at h₁ h₂ ⊢
  by_cases hab : a.package = b.package
  · by_cases hbc : b.package = c.package
    · rw [if_pos (beq_iff_eq.mpr hab)] at h₁
      rw [if_pos (beq_iff_eq.mpr hbc)] at h₂
      have hac : a.package = c.package := hab.trans hbc
      rw [if_pos (beq_iff_eq.mpr hac)]
      exact strLe_trans h₁ h₂
    · rw [if_neg (by simpa using hbc)] at h₂
      have hac : ¬ a.package = c.package := by
        intro h
        exact hbc (hab.symm.trans h)
      rw [if_neg (by simpa using hac)]
      rw [hab]
      exact h₂
  · rw [if_neg (by simpa using hab)] at h₁
    by_cases hbc : b.package = c.package
    · have hac : ¬ a.package = c.package := by
        intro h
        exact hab (h.trans hbc.symm)
      rw [if_neg (by simpa using hac)]
      rw [← hbc]
      exact h₁
    · rw [if_neg (by simpa using hbc)] at h₂
      by_cases hac : a.package = c.package
      · have : a.package = b.package := by
          have := strLe_antisymm h₁ (by rw [← hac] at h₂; exact h₂)
          exact this
        exact absurd this hab
      · rw [if_neg (by simpa using hac)]
        exact strLe_trans h₁ h₂

instance : IsTotal MatchRecord matchLe := ⟨matchLe_total⟩

instance : IsTrans MatchRecord matchLe := ⟨fun _ _ _ => matchLe_trans⟩

/-! ## Lemmas: the record parser and the per-repository scan -/

theorem parsePkg_valid {p : SpdxPackage} {nv : NV}
    (h : parsePkgNameVersionFromSpdx p = .ok (some nv)) :
    semverValid nv.version = true := by
  unfold parsePkgNameVersionFromSpdx at h
  split at h
  · rename_i hcond
    injection h with h1
    injection h1 with h2
    rw [Bool.and_eq_true] at hcond
    rw [← h2]
    exact hcond.2
  · split at h
    · exact absurd h (by simp)
    · rename_i purl hfind
      unfold parsePurl at h
      split at h
      · split at h
        · exact absurd h (by simp)
        · split at h
          · exact absurd h (by simp)
          · split at h
            · exact absurd h (by simp)
            · rename_i nameCs hdec
              split at h
              · rename_i hvalid
                injection h with h1
                injection h1 with h2
                rw [← h2]
                exact hvalid
              · exact absurd h (by simp)
      · exact absurd h (by simp)

theorem scanFold_mem {idx : List (String × String)} :
    ∀ (pkgs : List SpdxPackage) (acc found : List String),
      pkgs.foldlM (scanStep idx) acc = Except.ok found →
      ∀ pair ∈ found, pair ∈ acc ∨
        ∃ nv : NV, pair = keyNameVersion nv.name nv.version ∧
          semverValid nv.version = true := by
  intro pkgs
  induction pkgs with
  | nil =>
    intro acc found h pair hpair
    rw [List.foldlM_nil] at h
    injection h with h1
    rw [← h1] at hpair
    exact Or.inl hpair
  | cons p pkgs ih =>
    intro acc found h pair hpair
    rw [List.foldlM_cons] at h
    cases hp : parsePkgNameVersionFromSpdx p with
    | error e =>
      have hstep : scanStep idx acc p = .error e := by
        unfold scanStep
        rw [hp]
      rw [hstep] at h
      have h' : (Except.error e : Except String (List String)) = Except.ok found := h
      exact absurd h' (by simp)
    | ok onv =>
      cases onv with
      | none =>
        have hstep : scanStep idx acc p = .ok acc := by
          unfold scanStep
          rw [hp]
        rw [hstep] at h
        have h' : pkgs.foldlM (scanStep idx) acc = Except.ok found := h
        exact ih acc found h' pair hpair
      | some nv =>
        by_cases hm : versionMatch idx nv = true
        · have hstep : scanStep idx acc p
              = .ok (setAdd acc (keyNameVersion nv.name nv.version)) := by
            unfold scanStep
            rw [hp]
            show Except.ok (if versionMatch idx nv then
                setAdd acc (keyNameVersion nv.name nv.version) else acc) = _
            rw [if_pos hm]
          rw [hstep] at h
          have h' : pkgs.foldlM (scanStep idx)
              (setAdd acc (keyNameVersion nv.name nv.version)) = Except.ok found := h
          rcases ih _ found h' pair hpair with hin | hex
          · rcases (mem_setAdd _ _ _).mp hin with hin' | rfl
            · exact Or.inl hin'
            · exact Or.inr ⟨nv, rfl, parsePkg_valid hp⟩
          · exact Or.inr hex
        · have hstep : scanStep idx acc p = .ok acc := by
            unfold scanStep
            rw [hp]
            show Except.ok (if versionMatch idx nv then
                setAdd acc (keyNameVersion nv.name nv.version) else acc) = _
            rw [if_neg hm]
          rw [hstep] at h
          have h' : pkgs.foldlM (scanStep idx) acc = Except.ok found := h
          exact ih acc found h' pair hpair

theorem scanRepoPairs_mem {idx : List (String × String)} {r : RepoResult} :
    ∀ pair ∈ scanRepoPairs idx r,
      ∃ nv : NV, pair = keyNameVersion nv.name nv.version ∧
        semverValid nv.version = true := by
  intro pair hpair
  unfold scanRepoPairs at hpair
  cases hw : workerPairs idx r with
  | error e => rw [hw] at hpair; cases hpair
  | ok found =>
    rw [hw] at hpair
    unfold workerPairs at hw
    cases hf : r.fetch with
    | error e => rw [hf] at hw; exact absurd hw (by simp)
    | ok pkgs =>
      rw [hf] at hw
      rcases scanFold_mem pkgs [] found hw pair hpair with hin | hex
      · cases hin
      · exact hex

/-! ## Lemmas: the aggregator -/

theorem setAdd_absorb (s : List String) (x : String) :
    setAdd (setAdd s x) x = setAdd s x := by
  unfold setAdd
  by_cases h : s.contains x
  · rw [if_pos h, if_pos h]
  · rw [if_neg h]
    rw [if_pos (by simp)]

theorem affectedStep_eq (full : String) (m : List (String × List String)) (pair : String) :
    affectedStep full m pair = mapSet m pair (setAdd ((mapGet m pair).getD []) full) := by
  unfold affectedStep
  cases mapGet m pair <;> rfl

theorem affected_fold_get (full : String) :
    ∀ (pairs : List String) (m : List (String × List String)) (k : String),
      mapGet (pairs.foldl (affectedStep full) m) k =
        if k ∈ pairs then some (setAdd ((mapGet m k).getD []) full) else mapGet m k := by
  intro pairs
  induction pairs with
  | nil =>
    intro m k
    rw [List.foldl_nil, if_neg (List.not_mem_nil k)]
  | cons p ps ih =>
    intro m k
    rw [List.foldl_cons, ih]
    by_cases hk : k = p
    · subst hk
      have hget : mapGet (affectedStep full m k) k
          = some (setAdd ((mapGet m k).getD []) full) := by
        rw [affectedStep_eq, mapGet_mapSet_self]
      by_cases hin : k ∈ ps
      · rw [if_pos hin, if_pos (List.mem_cons_self k ps), hget]
        simp only [Option.getD_some]
        rw [setAdd_absorb]
      · rw [if_neg hin, if_pos (List.mem_cons_self k ps), hget]
    · have hget : mapGet (affectedStep full m p) k = mapGet m k := by
        rw [affectedStep_eq]
        exact mapGet_mapSet_ne _ _ _ _ hk
      by_cases hin : k ∈ ps
      · rw [if_pos hin, if_pos (List.mem_cons_of_mem p hin), hget]
      · rw [if_neg hin, hget, if_neg]
        intro hmem
        rcases List.mem_cons.mp hmem with h | h
        · exact hk h
        · exact hin h

theorem aggregate_get_aux (idx : List (String × String)) :
    ∀ (rs : List RepoResult) (m : List (String × List String)) (k : String),
      mapGet (rs.foldl (aggregateRepo idx) m) k =
        (reposFor idx rs k).foldl
          (fun o full => some (setAdd (o.getD []) full)) (mapGet m k) := by
  intro rs
  induction rs with
  | nil => intro m k; rfl
  | cons r rs ih =>
    intro m k
    rw [List.foldl_cons, ih]
    unfold reposFor
    by_cases hc : (scanRepoPairs idx r).contains k = true
    · rw [List.filter_cons, if_pos hc, List.map_cons, List.foldl_cons]
      have hmem : k ∈ scanRepoPairs idx r := List.elem_iff.mp hc
      have : mapGet (aggregateRepo idx m r) k
          = some (setAdd ((mapGet m k).getD []) r.full) := by
        unfold aggregateRepo
        rw [affected_fold_get, if_pos hmem]
      rw [this]
    · rw [List.filter_cons, if_neg hc]
      have hmem : k ∉ scanRepoPairs idx r := fun hm => hc (List.elem_iff.mpr hm)
      have : mapGet (aggregateRepo idx m r) k = mapGet m k := by
        unfold aggregateRepo
        rw [affected_fold_get, if_neg hmem]
      rw [this]

theorem foldl_optAdd_some (l : List String) :
    ∀ s : List String,
      l.foldl (fun o full => some (setAdd (o.getD []) full)) (some s)
        = some (l.foldl setAdd s) := by
  induction l with
  | nil => intro s; rfl
  | cons f fs ih =>
    intro s
    rw [List.foldl_cons, List.foldl_cons]
    exact ih (setAdd s f)

theorem aggregate_get (idx : List (String × String)) (rs : List RepoResult) (k : String) :
    mapGet (aggregate idx rs) k =
      match reposFor idx rs k with
      | [] => none
      | f :: fs => some ((f :: fs).foldl setAdd []) := by
  unfold aggregate
  rw [aggregate_get_aux]
  have hnone : mapGet ([] : List (String × List String)) k = none := rfl
  rw [hnone]
  cases hrf : reposFor idx rs k with
  | nil => rfl
  | cons f fs =>
    show List.foldl (fun o full => some (setAdd (o.getD []) full)) none (f :: fs)
      = some (List.foldl setAdd [] (f :: fs))
    rw [List.foldl_cons, List.foldl_cons]
    exact foldl_optAdd_some fs (setAdd [] f)

theorem mem_foldl_setAdd (x : String) :
    ∀ (l : List String) (init : List String),
      x ∈ l.foldl setAdd init ↔ x ∈ init ∨ x ∈ l := by
  intro l
  induction l with
  | nil => intro init; simp
  | cons f fs ih =>
    intro init
    rw [List.foldl_cons, ih, mem_setAdd]
    constructor
    · rintro ((h | rfl) | h)
      · exact Or.inl h
      · exact Or.inr (List.mem_cons_self _ _)
      · exact Or.inr (List.mem_cons_of_mem _ h)
    · rintro (h | h)
      · exact Or.inl (Or.inl h)
      · rcases List.mem_cons.mp h with rfl | h
        · exact Or.inl (Or.inr rfl)
        · exact Or.inr h

theorem nodup_foldl_setAdd :
    ∀ (l : List String) (init : List String), init.Nodup → (l.foldl setAdd init).Nodup := by
  intro l
  induction l with
  | nil => intro init h; exact h
  | cons f fs ih =>
    intro init h
    rw [List.foldl_cons]
    exact ih _ (nodup_setAdd _ _ h)

theorem mem_reposFor {idx : List (String × String)} {rs : List RepoResult} {k : String}
    (name : String) :
    name ∈ reposFor idx rs k ↔
      ∃ r ∈ rs, r.full = name ∧ k ∈ scanRepoPairs idx r := by
  unfold reposFor
  rw [List.mem_map]
  constructor
  · rintro ⟨r, hr, rfl⟩
    have := List.mem_filter.mp hr
    refine ⟨r, this.1, rfl, ?_⟩
    exact List.elem_iff.mp this.2
  · rintro ⟨r, hr, rfl, hk⟩
    exact ⟨r, List.mem_filter.mpr ⟨hr, List.elem_iff.mpr hk⟩, rfl⟩

theorem mapSet_keys_nodup {β : Type} (m : List (String × β)) (k : String) (v : β)
    (h : (m.map Prod.fst).Nodup) : ((mapSet m k v).map Prod.fst).Nodup := by
  unfold mapSet
  by_cases hm : m.any (fun p => p.1 == k)
  · rw [if_pos hm]
    have : (m.map (fun p => if p.1 == k then (k, v) else p)).map Prod.fst
        = m.map Prod.fst := by
      rw [List.map_map]
      apply List.map_congr_left
      intro p _
      by_cases hp : p.1 = k
      · simp [hp]
      · simp [hp]
    rw [this]
    exact h
  · rw [if_neg hm]
    rw [List.map_append]
    have hk : k ∉ m.map Prod.fst := by
      intro hkm
      rcases List.mem_map.mp hkm with ⟨p, hp, hpk⟩
      exact hm (List.any_eq_true.mpr ⟨p, hp, beq_iff_eq.mpr hpk⟩)
    exact h.append (List.nodup_singleton k) (List.disjoint_singleton.mpr hk)

theorem affectedStep_keys_nodup (full : String) (m : List (String × List String))
    (pair : String) (h : (m.map Prod.fst).Nodup) :
    ((affectedStep full m pair).map Prod.fst).Nodup := by
  rw [affectedStep_eq]
  exact mapSet_keys_nodup _ _ _ h

theorem aggregate_keys_nodup (idx : List (String × String)) (rs : List RepoResult) :
    ((aggregate idx rs).map Prod.fst).Nodup := by
  unfold aggregate
  have main : ∀ (rs' : List RepoResult) (m : List (String × List String)),
      (m.map Prod.fst).Nodup → ((rs'.foldl (aggregateRepo idx) m).map Prod.fst).Nodup := by
    intro rs'
    induction rs' with
    | nil => intro m h; exact h
    | cons r rest ih =>
      intro m h
      rw [List.foldl_cons]
      apply ih
      unfold aggregateRepo
      have inner : ∀ (pairs : List String) (m' : List (String × List String)),
          (m'.map Prod.fst).Nodup →
          ((pairs.foldl (affectedStep r.full) m').map Prod.fst).Nodup := by
        intro pairs
        induction pairs with
        | nil => intro m' h'; exact h'
        | cons p prest ihp =>
          intro m' h'
          rw [List.foldl_cons]
          exact ihp _ (affectedStep_keys_nodup _ _ _ h')
      exact inner _ _ h
  exact main rs [] (by simp)

theorem mem_assoc_iff_mapGet {β : Type} {m : List (String × β)}
    (hnd : (m.map Prod.fst).Nodup) (k : String) (v : β) :
    (k, v) ∈ m ↔ mapGet m k = some v := by
  induction m with
  | nil => simp [mapGet]
  | cons p rest ih =>
    rw [List.map_cons, List.nodup_cons] at hnd
    constructor
    · intro hmem
      rcases List.mem_cons.mp hmem with rfl | hmem'
      · unfold mapGet
        rw [List.find?_cons_of_pos _ (by simp)]
      · have hk : p.1 ≠ k := by
          intro hpk
          apply hnd.1
          rw [hpk]
          exact List.mem_map.mpr ⟨(k, v), hmem', rfl⟩
        unfold mapGet
        rw [List.find?_cons_of_neg _ (by simpa using hk)]
        exact (ih hnd.2 |>.mp hmem')
    · intro hget
      unfold mapGet at hget
      by_cases hk : p.1 = k
      · rw [List.find?_cons_of_pos _ (by simpa using hk)] at hget
        rcases p with ⟨pk, pv⟩
        injection hget with h1
        have hpv : pv = v := h1
        subst hpv
        have hpk : pk = k := hk
        subst hpk
        exact List.mem_cons_self _ _
      · rw [List.find?_cons_of_neg _ (by simpa using hk)] at hget
        exact List.mem_cons_of_mem _ ((ih hnd.2).mpr hget)

/-! ## Lemmas: the final matches array -/

theorem finalMatches_sorted (idx : List (String × String)) (rs : List RepoResult) :
    List.Sorted matchLe (finalMatches idx rs) :=
  List.sorted_insertionSort matchLe _

theorem finalMatches_anatomy (idx : List (String × String)) (rs : List RepoResult)
    (rec : MatchRecord) (hrec : rec ∈ finalMatches idx rs) :
    ∃ (nv : NV) (set : List String),
      rec = { package := jsToLower nv.name, version := nv.version,
              repositories := List.insertionSort strOrd set } ∧
      semverValid nv.version = true ∧
      set.Nodup ∧
      (∃ r ∈ rs, keyNameVersion nv.name nv.version ∈ scanRepoPairs idx r) ∧
      (∀ name, name ∈ set ↔ ∃ r ∈ rs, r.full = name ∧
        keyNameVersion nv.name nv.version ∈ scanRepoPairs idx r) := by
  unfold finalMatches at hrec
  have hrec' : rec ∈ (aggregate idx rs).map recOf :=
    (List.perm_insertionSort matchLe _).mem_iff.mp hrec
  rcases List.mem_map.mp hrec' with ⟨kv, hkv, hrfl⟩
  obtain ⟨k, set⟩ := kv
  have hget : mapGet (aggregate idx rs) k = some set :=
    (mem_assoc_iff_mapGet (aggregate_keys_nodup idx rs) k set).mp hkv
  have hag := aggregate_get idx rs k
  rw [hget] at hag
  cases hrf : reposFor idx rs k with
  | nil =>
    rw [hrf] at hag
    exact absurd hag (by simp)
  | cons f fs =>
    rw [hrf] at hag
    have hset : set = (f :: fs).foldl setAdd [] := by
      injection hag
    have hfmem : f ∈ reposFor idx rs k := by
      rw [hrf]
      exact List.mem_cons_self f fs
    rcases (mem_reposFor f).mp hfmem with ⟨r, hr, hfull, hkr⟩
    rcases scanRepoPairs_mem k hkr with ⟨nv, hkey, hval⟩
    refine ⟨nv, set, ?_, hval, ?_, ⟨r, hr, by rw [← hkey]; exact hkr⟩, ?_⟩
    · rw [← hrfl, hkey]
      exact recOf_key _ _ (semverValid_no_at hval) set
    · rw [hset]
      exact nodup_foldl_setAdd _ _ List.nodup_nil
    · intro name
      rw [hset, mem_foldl_setAdd]
      have hrfc : name ∈ (f :: fs) ↔ name ∈ reposFor idx rs k := by
        rw [hrf]
      constructor
      · rintro (hnil | hfs)
        · exact absurd hnil (List.not_mem_nil name)
        · rcases (mem_reposFor name).mp (hrfc.mp hfs) with ⟨r', hr', hfull', hk'⟩
          rw [hkey] at hk'
          exact ⟨r', hr', hfull', hk'⟩
      · rintro ⟨r', hr', hfull', hk'⟩
        rw [← hkey] at hk'
        exact Or.inr (hrfc.mpr ((mem_reposFor name).mpr ⟨r', hr', hfull', hk'⟩))

/-! ## Lemmas: fetch-error isolation -/

theorem aggregateRepo_error (idx : List (String × String))
    (m : List (String × List String)) (x e : String) :
    aggregateRepo idx m ⟨x, Except.error e⟩ = m := rfl

theorem aggregate_skip_error (idx : List (String × String)) (pre post : List RepoResult)
    (x e : String) :
    aggregate idx (pre ++ ⟨x, Except.error e⟩ :: post) = aggregate idx (pre ++ post) := by
  unfold aggregate
  rw [List.foldl_append, List.foldl_append, List.foldl_cons, aggregateRepo_error]

theorem scanLogs_append_error (idx : List (String × String)) (pre post : List RepoResult)
    (x e : String) :
    scanLogs idx (pre ++ ⟨x, Except.error e⟩ :: post) =
      scanLogs idx pre ++ ("SBOM fetch failed for " ++ x ++ ": " ++ e) :: scanLogs idx post := by
  unfold scanLogs
  rw [List.flatMap_append, List.flatMap_cons]
  rfl

/-! ## Lemmas: the promise pool -/

theorem canStart_nat_iff (N a : Nat) : canStart (some (N : ℚ)) a = true ↔ a < N := by
  unfold canStart
  rw [decide_eq_true_eq]
  exact Nat.cast_lt

theorem canStart_nonpos {q : ℚ} (hq : q ≤ 0) (a : Nat) : canStart (some q) a = false := by
  unfold canStart
  rw [decide_eq_false_iff_not]
  intro hlt
  have h0 : (0 : ℚ) ≤ (a : ℚ) := Nat.cast_nonneg a
  exact absurd ((h0.trans_lt hlt).trans_le hq) (lt_irrefl 0)

theorem pool_reach_active_le (total N : Nat) :
    ∀ s, PoolReach total (some (N : ℚ)) poolInit s → s.active ≤ N := by
  intro s h
  induction h with
  | refl => exact Nat.zero_le N
  | tail hreach hstep ih =>
    cases hstep with
    | start next active hs hq =>
      have hlt := (canStart_nat_iff N active).mp hs
      show active + 1 ≤ N
      omega
    | settle next active ha =>
      have ih' : active ≤ N := ih
      show active - 1 ≤ N
      omega

theorem pool_reach_next_le (total N : Nat) :
    ∀ s, PoolReach total (some (N : ℚ)) poolInit s → s.next ≤ total := by
  intro s h
  induction h with
  | refl => exact Nat.zero_le total
  | tail hreach hstep ih =>
    cases hstep with
    | start next active hs hq =>
      show next + 1 ≤ total
      omega
    | settle next active ha => exact ih

/-! ## The claims -/

/-- C1: for every discovered (name, version) pair and every watch index the
version matcher reports a match if and only if the lowercased name is
present in the index with some ceiling `V` and the discovered version is
less-than-or-equal to `V` under semantic-version ordering; if the
lowercased name is absent it is never a match. -/
theorem version_matcher_iff (entries : List NV) (p : SpdxPackage) (nv : NV)
    (hnv : parsePkgNameVersionFromSpdx p = .ok (some nv)) :
    (versionMatch (buildWatchIndex entries) nv = true ↔
      ∃ (V : String) (dv cv : SemVer),
        mapGet (buildWatchIndex entries) (jsToLower nv.name) = some V ∧
        parseSemver nv.version = some dv ∧ parseSemver V = some cv ∧
        compareSemVer dv cv ≠ .gt) ∧
    (mapGet (buildWatchIndex entries) (jsToLower nv.name) = none →
      versionMatch (buildWatchIndex entries) nv = false) := by
  have hval := parsePkg_valid hnv
  rcases semverValid_parse_some hval with ⟨dv, hdv⟩
  constructor
  · constructor
    · intro hm
      unfold versionMatch at hm
      cases hget : mapGet (buildWatchIndex entries) (jsToLower nv.name) with
      | none => rw [hget] at hm; exact absurd hm (by simp)
      | some V =>
        rw [hget] at hm
        have hVval := buildWatchIndex_values_valid hget
        rcases semverValid_parse_some hVval with ⟨cv, hcv⟩
        have hne : (V == "") = false :=
          beq_eq_false_iff_ne.mpr (semverValid_ne_empty hVval)
        have hm' : (if (V == "") = true then false
            else semverLteB nv.version V) = true := hm
        rw [hne] at hm'
        simp only [Bool.false_eq_true, if_false] at hm'
        rw [semverLteB_some hdv hcv] at hm'
        exact ⟨V, dv, cv, rfl, hdv, hcv, (ordBne_gt _).mp hm'⟩
    · rintro ⟨V, dv', cv, hget, hdv', hcv, hcmp⟩
      unfold versionMatch
      rw [hget]
      have hVval := buildWatchIndex_values_valid hget
      have hne : (V == "") = false :=
        beq_eq_false_iff_ne.mpr (semverValid_ne_empty hVval)
      show (if (V == "") = true then false else semverLteB nv.version V) = true
      rw [hne]
      simp only [Bool.false_eq_true, if_false]
      rw [semverLteB_some hdv' hcv]
      exact (ordBne_gt _).mpr hcmp
  · intro hget
    unfold versionMatch
    rw [hget]

/-- Witness for C1 at a concrete discovered record and watch list. -/
theorem version_matcher_iff_witness :
    versionMatch (buildWatchIndex [⟨"left-pad", "1.3.0"⟩]) ⟨"Left-Pad", "1.1.0"⟩ = true :=
  ((version_matcher_iff [⟨"left-pad", "1.3.0"⟩]
      ⟨some "Left-Pad", some "1.1.0", none⟩ ⟨"Left-Pad", "1.1.0"⟩ rfl).1).mpr
    ⟨"1.3.0", ⟨1, 1, 0, [], []⟩, ⟨1, 3, 0, [], []⟩, rfl, rfl, rfl, by decide⟩

/-- C2 counterexample: the match key and the output record lowercase the
discovered name `Left-Pad`; they do not carry its original case. -/
theorem matchkey_original_case_counterexample :
    keyNameVersion "Left-Pad" "1.1.0" = "left-pad@1.1.0" ∧
    (finalMatches (buildWatchIndex [⟨"left-pad", "1.3.0"⟩])
        [⟨"org/repo", .ok [⟨some "Left-Pad", some "1.1.0", none⟩]⟩]).map
        MatchRecord.package = ["left-pad"] ∧
    ("left-pad" : String) ≠ "Left-Pad" :=
  ⟨rfl, rfl, by decide⟩

/-- C2 (amended): every match key and output record carries the lowercased
package name (the discovered name's case is not preserved), each record
stems from an actual discovery with that lowercased name and exact version,
and the matches array is sorted primarily by that lowercased package name
and secondarily by version. -/
theorem matches_lowercased_sorted (idx : List (String × String)) (rs : List RepoResult) :
    List.Sorted matchLe (finalMatches idx rs) ∧
    ∀ rec ∈ finalMatches idx rs,
      rec.package = jsToLower rec.package ∧
      ∃ r ∈ rs, ∃ nv : NV, rec.package = jsToLower nv.name ∧ rec.version = nv.version ∧
        keyNameVersion nv.name nv.version ∈ scanRepoPairs idx r := by
  refine ⟨finalMatches_sorted idx rs, ?_⟩
  intro rec hrec
  rcases finalMatches_anatomy idx rs rec hrec with
    ⟨nv, set, hrec', hval, hnodup, ⟨r, hr, hkr⟩, hmem⟩
  constructor
  · rw [hrec']
    exact (jsToLower_idem nv.name).symm
  · exact ⟨r, hr, nv, by rw [hrec'], by rw [hrec'], hkr⟩

/-- Witness for C2 (amended) at a concrete scan. -/
theorem matches_lowercased_sorted_witness :
    ("left-pad" : String) = jsToLower "left-pad" :=
  (((matches_lowercased_sorted (buildWatchIndex [⟨"left-pad", "1.3.0"⟩])
      [⟨"org/repo", .ok [⟨some "Left-Pad", some "1.1.0", none⟩]⟩]).2
      ⟨"left-pad", "1.1.0", ["org/repo"]⟩ (by decide)).1)

/-- C3 counterexample: a record whose purl fallback contains a malformed
percent-escape makes `decodeURIComponent` throw, so the parser does not
return "no result" and the remaining records of the repository are not
processed (the whole record loop aborts with the error). -/
theorem record_parser_uri_error_counterexample :
    parsePkgNameVersionFromSpdx
        ⟨none, none, some [⟨some "purl", some "pkg:npm/100%@1.0.0"⟩]⟩
      = .error "URIError: URI malformed" ∧
    scanPackages (buildWatchIndex [⟨"left-pad", "1.3.0"⟩])
        [⟨none, none, some [⟨some "purl", some "pkg:npm/100%@1.0.0"⟩]⟩,
         ⟨some "left-pad", some "1.1.0", none⟩]
      = .error "URIError: URI malformed" :=
  ⟨rfl, rfl⟩

/-- C3 (amended): whenever the record parser returns "no result" (which it
does for every unnormalisable record that does not make `decodeURIComponent`
throw), the record is skipped without error and the remaining records of the
repository are processed exactly as if the record were absent. -/
theorem record_skip_preserves_rest (idx : List (String × String))
    (pre post : List SpdxPackage) (p : SpdxPackage)
    (hp : parsePkgNameVersionFromSpdx p = .ok none) :
    scanPackages idx (pre ++ p :: post) = scanPackages idx (pre ++ post) := by
  unfold scanPackages
  rw [List.foldlM_append, List.foldlM_append]
  cases hpre : pre.foldlM (scanStep idx) [] with
  | error e => rfl
  | ok acc =>
    show (p :: post).foldlM (scanStep idx) acc = post.foldlM (scanStep idx) acc
    rw [List.foldlM_cons]
    have hstep : scanStep idx acc p = .ok acc := by
      unfold scanStep
      rw [hp]
    rw [hstep]
    rfl

/-- Witness for C3 (amended): an empty record is skipped and the record
after it is still scanned. -/
theorem record_skip_preserves_rest_witness :
    scanPackages (buildWatchIndex [⟨"left-pad", "1.3.0"⟩])
        [⟨none, none, none⟩, ⟨some "left-pad", some "1.1.0", none⟩]
      = scanPackages (buildWatchIndex [⟨"left-pad", "1.3.0"⟩])
        [⟨some "left-pad", some "1.1.0", none⟩] :=
  record_skip_preserves_rest (buildWatchIndex [⟨"left-pad", "1.3.0"⟩]) []
    [⟨some "left-pad", some "1.1.0", none⟩] ⟨none, none, none⟩ rfl

/-- C4 counterexample: npm semver treats `1.0.0` and `v1.0.0` as equal but
the fold keeps whichever string it saw first, so building the index from a
permuted entry list yields a different map — order-independence fails as
stated. -/
theorem watch_index_order_dependent_counterexample :
    List.Perm [(⟨"pkg", "1.0.0"⟩ : NV), ⟨"pkg", "v1.0.0"⟩]
      [⟨"pkg", "v1.0.0"⟩, ⟨"pkg", "1.0.0"⟩] ∧
    mapGet (buildWatchIndex [⟨"pkg", "1.0.0"⟩, ⟨"pkg", "v1.0.0"⟩]) "pkg"
      = some "1.0.0" ∧
    mapGet (buildWatchIndex [⟨"pkg", "v1.0.0"⟩, ⟨"pkg", "1.0.0"⟩]) "pkg"
      = some "v1.0.0" ∧
    ("1.0.0" : String) ≠ "v1.0.0" :=
  ⟨by decide, rfl, rfl, by decide⟩

/-- C4 (amended): for every list of watch-list entries the watch-index fold
is idempotent, a name maps to nothing exactly when the list offers it no
valid version, and each lowercased name maps to a listed valid version that
is maximal under semver ordering; building is order-independent provided no
two entries for the same lowercased name carry semver-equal but textually
distinct valid versions. -/
theorem watch_index_fold_properties (l : List NV) :
    (∀ k, mapGet (buildWatchIndex (l ++ l)) k = mapGet (buildWatchIndex l) k) ∧
    (∀ k, mapGet (buildWatchIndex l) k = none ↔ wiVersions l k = []) ∧
    (∀ k v, mapGet (buildWatchIndex l) k = some v →
      v ∈ wiVersions l k ∧ ∀ w ∈ wiVersions l k, semverGtB w v = false) ∧
    (∀ l', l.Perm l' → WatchDistinct l →
      ∀ k, mapGet (buildWatchIndex l) k = mapGet (buildWatchIndex l') k) :=
  ⟨fun k => buildWatchIndex_idem l k,
   fun k => buildWatchIndex_none_iff l k,
   fun k v h => buildWatchIndex_max l k v h,
   fun l' hperm hd k => buildWatchIndex_perm hperm hd k⟩

/-- Witness for C4 (amended) on the specification's own example list,
exercising the order-independence conjunct's hypotheses. -/
theorem watch_index_fold_properties_witness :
    mapGet (buildWatchIndex [⟨"pkg", "1.0.0"⟩, ⟨"pkg", "2.0.0"⟩, ⟨"pkg", "1.5.0"⟩]) "pkg"
      = mapGet (buildWatchIndex [⟨"pkg", "1.5.0"⟩, ⟨"pkg", "2.0.0"⟩, ⟨"pkg", "1.0.0"⟩]) "pkg" :=
  (watch_index_fold_properties
      [⟨"pkg", "1.0.0"⟩, ⟨"pkg", "2.0.0"⟩, ⟨"pkg", "1.5.0"⟩]).2.2.2
      [⟨"pkg", "1.5.0"⟩, ⟨"pkg", "2.0.0"⟩, ⟨"pkg", "1.0.0"⟩]
      (by decide) (by decide) "pkg"

/-- C5: the scoped name round-trips — the watch-list line
`@scope/name@1.2.3` and the package-URL fallback
`pkg:npm/%40scope/name@1.2.3` both normalise to name `@scope/name` and
version `1.2.3`, and the discovered record matches the watch-list entry. -/
theorem scoped_name_roundtrip :
    parseLine "@scope/name@1.2.3" = some ⟨"@scope/name", "1.2.3"⟩ ∧
    parsePkgNameVersionFromSpdx
        ⟨none, none, some [⟨some "purl", some "pkg:npm/%40scope/name@1.2.3"⟩]⟩
      = .ok (some ⟨"@scope/name", "1.2.3"⟩) ∧
    versionMatch (buildWatchIndex (inputEntries ["@scope/name@1.2.3"]))
        ⟨"@scope/name", "1.2.3"⟩ = true :=
  ⟨rfl, rfl, rfl⟩

/-- C6 counterexample: the line `foo@bar` parses (non-empty name and
version) but `bar` is not a valid semantic version; it is nevertheless
counted in `input_entries`, which the claim says counts only
valid-semantic-version lines. -/
theorem input_entries_counts_invalid_semver :
    semverValid "bar" = false ∧
    (runScan "org" "t" "h" ["foo@bar"] []).input_entries = 1 ∧
    inputEntries ["foo@bar"] = [⟨"foo", "bar"⟩] :=
  ⟨rfl, rfl, rfl⟩

/-- C6 (amended): `input_entries` counts exactly the lines accepted by
`parseLine` — non-blank, not a comment, with `@` at a positive index and
non-empty trimmed name and version; validity of the version as semver is
not required (invalid versions are discarded later, by the index fold). -/
theorem input_entries_characterization :
    (∀ (org gat host : String) (lines : List String) (rs : List RepoResult),
      (runScan org gat host lines rs).input_entries
        = lines.countP (fun l => (parseLine l).isSome)) ∧
    (∀ line nv, parseLine line = some nv → nv.name ≠ "" ∧ nv.version ≠ "") := by
  constructor
  · intro org gat host lines rs
    show (inputEntries lines).length = _
    unfold inputEntries
    induction lines with
    | nil => rfl
    | cons l ls ih =>
      rw [List.filterMap_cons, List.countP_cons]
      cases hl : parseLine l with
      | none =>
        rw [ih]
        simp [hl]
      | some nv =>
        rw [List.length_cons, ih]
        simp [hl]
  · intro line nv h
    simp only [parseLine] at h
    split at h
    · exact absurd h (by simp)
    · split at h
      · exact absurd h (by simp)
      · split at h
        · exact absurd h (by simp)
        · exact absurd h (by simp)
        · rename_i atIdx
          split at h
          · exact absurd h (by simp)
          · rename_i hcond
            injection h with h1
            rw [← h1]
            rw [Bool.or_eq_true] at hcond
            push_neg at hcond
            constructor
            · intro hn
              exact hcond.1 (beq_iff_eq.mpr hn)
            · intro hv
              exact hcond.2 (beq_iff_eq.mpr hv)

/-- Witness for C6 (amended) on a line whose version is not valid semver. -/
theorem input_entries_characterization_witness :
    ("foo" : String) ≠ "" ∧ ("bar" : String) ≠ "" :=
  input_entries_characterization.2 "foo@bar" ⟨"foo", "bar"⟩ rfl

/-- C7: a repository's full name appears at most once in a match's
repository list (exactly once when it discovered that key, even if the
same package+version occurs several times in its SBOM), and each
repository list is sorted lexicographically. -/
theorem repositories_dedup_sorted (idx : List (String × String)) (rs : List RepoResult)
    (rec : MatchRecord) (hrec : rec ∈ finalMatches idx rs) :
    rec.repositories.Nodup ∧ List.Sorted strOrd rec.repositories ∧
    ∀ name, name ∈ rec.repositories ↔
      ∃ r ∈ rs, r.full = name ∧
        keyNameVersion rec.package rec.version ∈ scanRepoPairs idx r := by
  rcases finalMatches_anatomy idx rs rec hrec with
    ⟨nv, set, hrec', hval, hnodup, hdisc, hmem⟩
  have hkey : keyNameVersion rec.package rec.version
      = keyNameVersion nv.name nv.version := by
    rw [hrec']
    show keyNameVersion (jsToLower nv.name) nv.version = _
    unfold keyNameVersion
    rw [jsToLower_idem]
  have hreps : rec.repositories = List.insertionSort strOrd set := by
    rw [hrec']
  refine ⟨?_, ?_, ?_⟩
  · rw [hreps]
    exact ((List.perm_insertionSort strOrd set).nodup_iff).mpr hnodup
  · rw [hreps]
    exact List.sorted_insertionSort strOrd set
  · intro name
    rw [hreps, hkey]
    rw [(List.perm_insertionSort strOrd set).mem_iff]
    exact hmem name

/-- Witness for C7: the same package at the same version listed twice in
one repository's SBOM yields that repository exactly once. -/
theorem repositories_dedup_sorted_witness :
    (["org/repo"] : List String).Nodup :=
  (repositories_dedup_sorted (buildWatchIndex [⟨"left-pad", "1.3.0"⟩])
      [⟨"org/repo", .ok [⟨some "left-pad", some "1.1.0", none⟩,
        ⟨some "left-pad", some "1.1.0", none⟩]⟩]
      ⟨"left-pad", "1.1.0", ["org/repo"]⟩ (by decide)).1

/-- C8: a per-repository fetch error is caught and logged and does not
propagate — the accumulator and final matches are exactly those of the scan
without the failing repository, the failing repository contributes no match
entries, and the run completes and produces its output (in which the failed
repository still counts towards `repos_scanned`). -/
theorem fetch_error_isolation (org gat host : String) (lines : List String)
    (idx : List (String × String)) (pre post : List RepoResult) (x e : String) :
    aggregate idx (pre ++ ⟨x, Except.error e⟩ :: post) = aggregate idx (pre ++ post) ∧
    scanLogs idx (pre ++ ⟨x, Except.error e⟩ :: post)
      = scanLogs idx pre ++ ("SBOM fetch failed for " ++ x ++ ": " ++ e) ::
          scanLogs idx post ∧
    (runScan org gat host lines (pre ++ ⟨x, Except.error e⟩ :: post)).matchesOut
      = (runScan org gat host lines (pre ++ post)).matchesOut ∧
    (runScan org gat host lines (pre ++ ⟨x, Except.error e⟩ :: post)).repos_scanned
      = pre.length + 1 + post.length := by
  refine ⟨aggregate_skip_error idx pre post x e,
    scanLogs_append_error idx pre post x e, ?_, ?_⟩
  · show finalMatches (buildWatchIndex (inputEntries lines))
        (pre ++ ⟨x, Except.error e⟩ :: post)
      = finalMatches (buildWatchIndex (inputEntries lines)) (pre ++ post)
    unfold finalMatches
    rw [aggregate_skip_error]
  · show (pre ++ ⟨x, Except.error e⟩ :: post).length = pre.length + 1 + post.length
    rw [List.length_append, List.length_cons]
    omega

/-- C9: with a concurrency limit `N ≥ 1`, every reachable scheduler state
has at most `N` outstanding operations; from every reachable non-final
state another event (a start from the remaining queue or a settle) is
possible; every event strictly decreases the termination measure (so every
execution is finite); and the pool's exit condition holds only when all
`total` operations have been started and settled. -/
theorem pool_bounded_progress_termination (total N : Nat) (hN : 1 ≤ N) :
    (∀ s, PoolReach total (some (N : ℚ)) poolInit s → s.active ≤ N) ∧
    (∀ s, PoolReach total (some (N : ℚ)) poolInit s → ¬ poolDone total s →
      ∃ t, PoolStep total (some (N : ℚ)) s t) ∧
    (∀ s t, PoolStep total (some (N : ℚ)) s t →
      poolMeasure total t < poolMeasure total s) ∧
    (∀ s, poolDone total s → poolSettled s = total ∧ s.next = total) := by
  refine ⟨pool_reach_active_le total N, ?_, ?_, ?_⟩
  · intro s h hnotdone
    obtain ⟨next, active⟩ := s
    have hactle : PoolState.active ⟨next, active⟩ ≤ N := pool_reach_active_le total N _ h
    have hnextle : PoolState.next ⟨next, active⟩ ≤ total := pool_reach_next_le total N _ h
    have hactle' : active ≤ N := hactle
    have hnextle' : next ≤ total := hnextle
    by_cases hnext : next < total
    · by_cases hact : active < N
      · exact ⟨_, PoolStep.start next active ((canStart_nat_iff N active).mpr hact) hnext⟩
      · exact ⟨_, PoolStep.settle next active (by omega)⟩
    · have hact0 : active ≠ 0 := by
        intro h0
        exact hnotdone ⟨show next = total by omega, h0⟩
      exact ⟨_, PoolStep.settle next active (by omega)⟩
  · intro s t hstep
    cases hstep with
    | start next active hs hq =>
      show 2 * (total - (next + 1)) + (active + 1) < 2 * (total - next) + active
      omega
    | settle next active ha =>
      show 2 * (total - next) + (active - 1) < 2 * (total - next) + active
      omega
  · intro s hdone
    obtain ⟨hnext, hact⟩ := hdone
    constructor
    · unfold poolSettled
      omega
    · exact hnext

/-- Witness for C9: one settle event at limit 1 strictly decreases the
measure. -/
theorem pool_bounded_progress_termination_witness :
    poolMeasure 2 ⟨1, 0⟩ < poolMeasure 2 ⟨1, 1⟩ :=
  (pool_bounded_progress_termination 2 1 (by decide)).2.2.1 ⟨1, 1⟩ ⟨1, 0⟩
    (PoolStep.settle 1 1 (by decide))

/-- C10: with a limit of `0`, a negative number or `NaN` (every comparison
against which is false), and a non-empty item list, the scheduling loop
can fire no event at all — no worker ever starts — and the exit condition
of the pool never holds, so the loop spins forever. -/
theorem pool_nonpositive_limit_stuck (total : Nat) (limit : Option ℚ)
    (hl : limit = none ∨ ∃ q, limit = some q ∧ q ≤ 0) (ht : 0 < total) :
    (∀ t, ¬ PoolStep total limit poolInit t) ∧
    (∀ s, PoolReach total limit poolInit s → s = poolInit) ∧
    (∀ s, PoolReach total limit poolInit s → ¬ poolDone total s) := by
  have hcs : ∀ a, canStart limit a = false := by
    rcases hl with rfl | ⟨q, rfl, hq⟩
    · intro a
      rfl
    · intro a
      exact canStart_nonpos hq a
  have hnostep : ∀ t, ¬ PoolStep total limit poolInit t := by
    intro t hstep
    have hstep' : PoolStep total limit ⟨0, 0⟩ t := hstep
    cases hstep' with
    | start next active hs hq =>
      rw [hcs] at hs
      exact Bool.noConfusion hs
    | settle next active ha =>
      have : (0 : Nat) < 0 := ha
      omega
  have honly : ∀ s, PoolReach total limit poolInit s → s = poolInit := by
    intro s h
    induction h with
    | refl => rfl
    | tail hreach hstep ih =>
      subst ih
      exact absurd hstep (hnostep _)
  refine ⟨hnostep, honly, ?_⟩
  intro s h hdone
  obtain ⟨hnext, -⟩ := hdone
  rw [honly s h] at hnext
  have : (0 : Nat) = total := hnext
  omega

/-- Witness for C10 at limit `0` with one item. -/
theorem pool_nonpositive_limit_stuck_witness : ¬ poolDone 1 poolInit :=
  (pool_nonpositive_limit_stuck 1 (some 0) (Or.inr ⟨0, rfl, le_refl 0⟩)
      (by decide)).2.2 poolInit Relation.ReflTransGen.refl

end ShaiHulud
